import Mathlib

/-!
# Verification development for the `cidr-rs` CIDR aggregation engine

This file gives a shallow embedding of the core of `src/main.rs`:

* `Subnet` mirrors the Rust `struct Subnet { net: Result<u32, u128>, mask: u8, tag: u8 }`;
  the `Result` payload becomes `Sum Nat Nat` (`.inl` = IPv4/`Ok(u32)`, `.inr` = IPv6/`Err(u128)`).
* The derived lexicographic `Ord` (field order `net`, `mask`, `tag`, with `Ok < Err`)
  becomes `Subnet.lt`, and the `BTreeSet<Subnet>` becomes a strictly sorted list
  maintained by `insertSet`.
* Machine integers are embedded as `Nat`.  Where the Rust arithmetic is provably
  in range for the inputs under study, plain `Nat` operations are used; wherever an
  operation can overflow or shift by at least the full bit width for reachable inputs
  (this is the checked, debug-profile semantics of Rust, in which such an operation
  panics instead of wrapping), the embedding uses `checkedAdd` / `checkedSub` /
  `checkedShl` / `checkedShr`, which return `none` on the operations Rust refuses.
* Fallible parsing code returns `Except RErr _`; `RErr.panic` models a Rust panic
  (an index out of bounds, the `panic!("Error")` call, or checked-arithmetic
  failure in the debug profile), which is *not* caught by the `.ok()` call in
  `read_stdin`, while `RErr.config e` models a recoverable `cfg_rs::ConfigError`,
  which `.ok()` swallows.

Rust strings are embedded as `List Char`; the textual IPv4/IPv6 address parsers
live in `std` (outside this repository), so they are modelled from the spec
(see their doc comments).
-/

/-- Checked `w`-bit addition: Rust `a + b` on a `w`-bit unsigned integer panics
(debug profile) when the sum does not fit, so the embedding returns `none` there. -/
def checkedAdd (w a b : Nat) : Option Nat :=
  if a + b < 2 ^ w then some (a + b) else none

/-- Checked natural subtraction: Rust `a - b` on an unsigned integer panics
(debug profile) when `b > a`. -/
def checkedSub (a b : Nat) : Option Nat :=
  if b ≤ a then some (a - b) else none

/-- Checked `w`-bit left shift: a shift amount of at least the bit width is an
error in Rust (bits shifted out the top are discarded for smaller amounts). -/
def checkedShl (w a k : Nat) : Option Nat :=
  if k < w then some ((a <<< k) % 2 ^ w) else none

/-- Checked `w`-bit right shift: a shift amount of at least the bit width is an
error in Rust. -/
def checkedShr (w a k : Nat) : Option Nat :=
  if k < w then some (a >>> k) else none

/-- `u32::MAX`. -/
def u32MAX : Nat := 2 ^ 32 - 1

/-- `u128::MAX`. -/
def u128MAX : Nat := 2 ^ 128 - 1

/-!
## The range splitter (`common_parse_fn!`: `parse_ipv4_range` / `parse_ipv6_range`)

The Rust macro generates, for a bit width `$mp` (32 or 128), a loop that peels
single blocks off the ends of the working pair `(from, to)` and halves the
problem by right-shifting both ends.  `innerShift` is the inner
`while from & 1 == 0 && to & 1 == 1 { mask -= 1; from >>= 1; to >>= 1 }` loop
(structurally recursive on `mask`; the `mask = 0` base case is unreachable
whenever `to < 2 ^ mask`, which the outer loop maintains, since then `to = 0`
is even).  `rangeGo` is one iteration of the outer `while from <= to` loop;
the `fuel` argument makes the recursion structural and is always sufficient,
since every iteration that does not stop strictly decreases `mask`.
-/

/-- The inner halving loop of the range splitter. -/
def innerShift : Nat → Nat → Nat → Nat × Nat × Nat
  | 0, f, t => (0, f, t)
  | m + 1, f, t =>
    if f % 2 = 0 ∧ t % 2 = 1 then innerShift m (f / 2) (t / 2) else (m + 1, f, t)

/-- The outer loop of the range splitter, emitting `(network, mask)` pairs in
the order the Rust loop inserts them.  `w` is the bit width. -/
def rangeGo (w : Nat) : Nat → Nat → Nat → Nat → List (Nat × Nat)
  | 0, _, _, _ => []
  | fuel + 1, mask, f, t =>
    if t < f then []
    else if f = t then
      -- `if from != 0 || mask > 0 { from <<= ($mp - mask); }` then emit
      [((if f ≠ 0 ∨ 0 < mask then f <<< (w - mask) else f), mask)]
    else
      (if f % 2 = 1 then [(f <<< (w - mask), mask)] else []) ++
      (if t % 2 = 0 then [(t <<< (w - mask), mask)] else []) ++
      (let p := innerShift mask (if f % 2 = 1 then f + 1 else f)
                  (if t % 2 = 0 then t - 1 else t)
       rangeGo w fuel p.1 p.2.1 p.2.2)

/-- `split(from, to)` at width `w`: the full outer loop starting at `mask = w`. -/
def splitRange (w f t : Nat) : List (Nat × Nat) :=
  rangeGo w (w + 1) w f t

/-- Size of a CIDR block of mask `m` at bit width `w`. -/
def blocksize (w m : Nat) : Nat := 2 ^ (w - m)

/-- The set of addresses covered by the `(network, mask)` pair `b` at width `w`. -/
def coversP (w : Nat) (b : Nat × Nat) (a : Nat) : Prop :=
  b.1 ≤ a ∧ a < b.1 + blocksize w b.2

instance (w : Nat) (b : Nat × Nat) (a : Nat) : Decidable (coversP w b a) := by
  unfold coversP; infer_instance

/-- Two blocks cover disjoint address sets. -/
def disjB (w : Nat) (b1 b2 : Nat × Nat) : Prop :=
  ∀ a : Nat, ¬ (coversP w b1 a ∧ coversP w b2 a)

/-- A well-formed `(network, mask)` pair at width `w`: the mask is in range and
the network is aligned (all host bits zero). -/
def validB (w : Nat) (b : Nat × Nat) : Prop :=
  b.2 ≤ w ∧ b.1 % blocksize w b.2 = 0

/-- Base address of the parent block (mask one shorter) of `b`. -/
def parentNet (w : Nat) (b : Nat × Nat) : Nat :=
  b.1 - b.1 % (2 * blocksize w b.2)

/-- `b` (of positive mask) cannot be doubled in place: its parent block does not
fit inside `[F, T]`. -/
def maximalIn (w F T : Nat) (b : Nat × Nat) : Prop :=
  1 ≤ b.2 → ¬ (F ≤ parentNet w b ∧ parentNet w b + 2 * blocksize w b.2 ≤ T + 1)

/-!
## `Subnet` and the ordered set (`BTreeSet<Subnet>`)
-/

/-- Rust `struct Subnet { net: Result<u32, u128>, mask: u8, tag: u8 }`.
`.inl` is `Ok` (IPv4), `.inr` is `Err` (IPv6). -/
structure Subnet where
  net : Sum Nat Nat
  mask : Nat
  tag : Nat
deriving DecidableEq

/-- `Subnet::new_v4`. -/
def Subnet.newV4 (net : Nat) (mask : Nat) : Subnet := ⟨Sum.inl net, mask, 0⟩

/-- `Subnet::new_v6`. -/
def Subnet.newV6 (net : Nat) (mask : Nat) : Subnet := ⟨Sum.inr net, mask, 0⟩

/-- The derived `Ord` of the Rust struct: lexicographic in declaration order
`net`, `mask`, `tag`, where `Ok(_) < Err(_)` for the `Result` field. -/
def Subnet.lt (a b : Subnet) : Bool :=
  match a.net, b.net with
  | Sum.inl _, Sum.inr _ => true
  | Sum.inr _, Sum.inl _ => false
  | Sum.inl x, Sum.inl y =>
    decide (x < y) || (decide (x = y) &&
      (decide (a.mask < b.mask) || (decide (a.mask = b.mask) && decide (a.tag < b.tag))))
  | Sum.inr x, Sum.inr y =>
    decide (x < y) || (decide (x = y) &&
      (decide (a.mask < b.mask) || (decide (a.mask = b.mask) && decide (a.tag < b.tag))))

/-- `BTreeSet::insert` on the sorted-list model of the set: keep the list
strictly sorted by `Subnet.lt`, do nothing when an equal element is present. -/
def insertSet : List Subnet → Subnet → List Subnet
  | [], s => [s]
  | x :: xs, s =>
    if s = x then x :: xs
    else if Subnet.lt s x then s :: x :: xs
    else x :: insertSet xs s

/-- `Subnet::contains`.  (The shift amounts `32 - mask` / `128 - mask` are the
Rust `u8` subtractions; for every `Subnet` constructed by this embedding the
mask is within the family's bit width, so plain truncated `Nat` subtraction
agrees with the machine arithmetic.) -/
def Subnet.contains (self target : Subnet) : Bool :=
  if self.mask > target.mask then false
  else if self.mask = 0 then true
  else match self.net, target.net with
    | Sum.inl a, Sum.inl b =>
      decide (a = (b >>> (32 - self.mask)) <<< (32 - self.mask))
    | Sum.inr a, Sum.inr b =>
      decide (a = (b >>> (128 - self.mask)) <<< (128 - self.mask))
    | _, _ => false

/-- `Subnet::is_next`. -/
def Subnet.isNext (self target : Subnet) : Bool :=
  if self.mask ≠ target.mask then false
  else match self.net, target.net with
    | Sum.inl a, Sum.inl b =>
      decide ((a >>> (32 - self.mask)) % 2 = 0) &&
      decide ((a >>> (32 - self.mask)) + 1 = b >>> (32 - self.mask))
    | Sum.inr a, Sum.inr b =>
      decide ((a >>> (128 - self.mask)) % 2 = 0) &&
      decide ((a >>> (128 - self.mask)) + 1 = b >>> (128 - self.mask))
    | _, _ => false

/-- The `while let Some(l) = vec.pop()` loop of `merge_vec`, acting on the
reversed vector (head = top of the stack). -/
def mergeVecR : List Subnet → Subnet → List Subnet
  | [], i => [i]
  | l :: rest, i =>
    if l.tag = i.tag && l.isNext i then
      mergeVecR rest { l with mask := l.mask - 1 }
    else i :: l :: rest

/-- `merge_vec(vec, i)`: pop equal-tag siblings off the end of `vec`, promoting
`i` to the parent block each time, then push. -/
def mergeVec (vec : List Subnet) (i : Subnet) : List Subnet :=
  (mergeVecR vec.reverse i).reverse

/-- `vec[vec.len() - 1].tag = t` (no-op on the empty vector; in `shrink` the
vector is provably non-empty whenever this is executed). -/
def setLastTag : List Subnet → Nat → List Subnet
  | [], _ => []
  | [x], t => [{ x with tag := t }]
  | x :: y :: xs, t => x :: setLastTag (y :: xs) t

/-- The walk of `SubnetList::shrink` over the sorted set, carrying the working
vector and the most recent cover `last`. -/
def shrinkLoop (mrg : Bool) : List Subnet → List Subnet → Option Subnet → List Subnet
  | [], vec, _ => vec
  | i :: rest, vec, last =>
    match last with
    | some l =>
      if l.contains i then
        shrinkLoop mrg rest (setLastTag vec (if mrg then 0 else 2)) last
      else shrinkLoop mrg rest (mergeVec vec i) (some i)
    | none => shrinkLoop mrg rest (mergeVec vec i) (some i)

/-- `SubnetList::shrink`: walk the sorted set, then rebuild it from the
vector's entries whose tag is 0. -/
def shrink (S : List Subnet) (mrg : Bool) : List Subnet :=
  (shrinkLoop mrg S [] none).foldl
    (fun acc i => if i.tag = 0 then insertSet acc i else acc) []

/-- `parse_ipv4_range`: run the splitter at width 32 and insert each emitted
block (tagged with `tag` when supplied) into the set. -/
def parseIpv4Range (v : List Subnet) (f t : Nat) (tag : Option Nat) : List Subnet :=
  (splitRange 32 f t).foldl
    (fun acc b => insertSet acc ⟨Sum.inl b.1, b.2, tag.getD 0⟩) v

/-- `parse_ipv6_range`: the same at width 128. -/
def parseIpv6Range (v : List Subnet) (f t : Nat) (tag : Option Nat) : List Subnet :=
  (splitRange 128 f t).foldl
    (fun acc b => insertSet acc ⟨Sum.inr b.1, b.2, tag.getD 0⟩) v

/-- One item of the walk in `SubnetList::gap`.  The accumulator is
`(result list, last_v4.0, last_v6.0)`.  The Rust body computes
`let x = s + (1 << (BITS - item.mask));` with no overflow guard: the shift
faults when `item.mask = 0` and the addition faults when the block reaches the
top of the address space, hence the checked operations. -/
def gapItem (acc : List Subnet × Nat × Nat) (item : Subnet) :
    Option (List Subnet × Nat × Nat) :=
  match item.net with
  | Sum.inl s =>
    let list1 := if s > acc.2.1 then parseIpv4Range acc.1 acc.2.1 (s - 1) none else acc.1
    match checkedShl 32 1 (32 - item.mask) with
    | none => none
    | some sz =>
      match checkedAdd 32 s sz with
      | none => none
      | some x => some (list1, (if x > acc.2.1 then x else acc.2.1), acc.2.2)
  | Sum.inr s =>
    let list1 := if s > acc.2.2 then parseIpv6Range acc.1 acc.2.2 (s - 1) none else acc.1
    match checkedShl 128 1 (128 - item.mask) with
    | none => none
    | some sz =>
      match checkedAdd 128 s sz with
      | none => none
      | some x => some (list1, acc.2.1, (if x > acc.2.2 then x else acc.2.2))

/-- `SubnetList::gap`, with `none` marking a run the checked Rust arithmetic
aborts.  Walk the sorted set, then emit the two trailing gaps. -/
def gapChecked (S : List Subnet) : Option (List Subnet) :=
  match S.foldlM gapItem ([], 0, 0) with
  | none => none
  | some acc =>
    let l1 := if acc.2.1 < u32MAX then parseIpv4Range acc.1 acc.2.1 u32MAX none else acc.1
    some (if acc.2.2 < u128MAX then parseIpv6Range l1 acc.2.2 u128MAX none else l1)

/-- `SubnetList::merge(self, new, merge)`: insert every block of `new.gap()`
retagged to 1 into `self`, then `shrink(merge)`. -/
def mergeSets (self new : List Subnet) (mrg : Bool) : Option (List Subnet) :=
  match gapChecked new with
  | none => none
  | some g =>
    some (shrink (g.foldl (fun acc b => insertSet acc { b with tag := 1 }) self) mrg)

/-!
## Parsing (`Subnet::prepare_str` / `parse_subnet` / `parse_range` / `parse`)

Rust `&str` values are embedded as `List Char`.  `CfgErr` stands for the
recoverable `cfg_rs::ConfigError` values that arise here (address/integer parse
failures propagated by `?`, and the `RefValueRecursiveError` from `ok_or`);
`RErr.panic` stands for a Rust panic.
-/

inductive CfgErr where
  | parseErr
  | refValueRecursive
deriving DecidableEq

inductive RErr where
  | panic
  | config (e : CfgErr)
deriving DecidableEq

instance {e a : Type} [DecidableEq e] [DecidableEq a] : DecidableEq (Except e a) := fun x y =>
  match x, y with
  | .ok u, .ok v =>
    if h : u = v then isTrue (by rw [h]) else isFalse (fun he => h (Except.ok.injEq u v ▸ he))
  | .error u, .error v =>
    if h : u = v then isTrue (by rw [h]) else isFalse (fun he => h (Except.error.injEq u v ▸ he))
  | .ok _, .error _ => isFalse (fun he => Except.noConfusion he)
  | .error _, .ok _ => isFalse (fun he => Except.noConfusion he)

/-- ASCII whitespace for `str::trim` (the inputs under study contain no other
whitespace). -/
def isWs (c : Char) : Bool := c = ' ' || c = '\t' || c = '\n' || c = '\r'

/-- `str::trim`. -/
def trimStr (s : List Char) : List Char :=
  ((s.dropWhile isWs).reverse.dropWhile isWs).reverse

/-- `Subnet::prepare_str`: trim, and when a `#` is present keep only the
trimmed text before the first `#`. -/
def prepareStr (s : List Char) : List Char :=
  let s := trimStr s
  if s.contains '#' then trimStr (s.takeWhile (fun c => c ≠ '#')) else s

/-- `str::split(',')`. -/
def splitComma : List Char → List (List Char)
  | [] => [[]]
  | c :: rest =>
    if c = ',' then [] :: splitComma rest
    else match splitComma rest with
      | [] => [[c]]
      | g :: gs => (c :: g) :: gs

/-- `str::split(':')`. -/
def splitColon : List Char → List (List Char)
  | [] => [[]]
  | c :: rest =>
    if c = ':' then [] :: splitColon rest
    else match splitColon rest with
      | [] => [[c]]
      | g :: gs => (c :: g) :: gs

/-- Decimal digit string (no sign), as accepted by Rust's integer `parse`
for the inputs under study.  Returns the value. -/
def decVal (s : List Char) : Option Nat :=
  if s.isEmpty || !(s.all Char.isDigit) then none
  else some (s.foldl (fun a c => a * 10 + (c.toNat - 48)) 0)

/-- `str::parse::<u8>()`. -/
def parseU8 (s : List Char) : Option Nat :=
  match decVal s with
  | none => none
  | some v => if v ≤ 255 then some v else none

/-- Modelled from the spec: one dotted-decimal octet of a bare IPv4 address
(`192.168.1.1`), as parsed by the standard library (which is outside this
repository): 1–3 decimal digits, value at most 255, no leading zero. -/
def octetVal (s : List Char) : Option Nat :=
  match decVal s with
  | none => none
  | some v =>
    if v ≤ 255 ∧ (s.length = 1 ∨ s.headD '0' ≠ '0') then some v else none

/-- `str::split('.')`. -/
def splitDot : List Char → List (List Char)
  | [] => [[]]
  | c :: rest =>
    if c = '.' then [] :: splitDot rest
    else match splitDot rest with
      | [] => [[c]]
      | g :: gs => (c :: g) :: gs

/-- Modelled from the spec: the textual IPv4 parse performed by
`s.parse::<Ipv4Addr>()` (standard library, outside this repository): four
dot-separated decimal octets, combined big-endian into a 32-bit value. -/
def parseIpv4Text (s : List Char) : Option Nat :=
  match (splitDot s).mapM octetVal with
  | some [a, b, c, d] => some (((a * 256 + b) * 256 + c) * 256 + d)
  | _ => none

/-- One hexadecimal digit value. -/
def hexVal (c : Char) : Option Nat :=
  if '0' ≤ c ∧ c ≤ '9' then some (c.toNat - 48)
  else if 'a' ≤ c ∧ c ≤ 'f' then some (c.toNat - 87)
  else if 'A' ≤ c ∧ c ≤ 'F' then some (c.toNat - 55)
  else none

/-- Modelled from the spec: one 16-bit group of an IPv6 address
(1–4 hexadecimal digits). -/
def group16 (s : List Char) : Option Nat :=
  if s.isEmpty || decide (4 < s.length) then none
  else (s.mapM hexVal).map (List.foldl (fun a v => a * 16 + v) 0)

/-- Split at the first occurrence of `"::"`, if any. -/
def splitDoubleColon : List Char → Option (List Char × List Char)
  | [] => none
  | [_] => none
  | a :: b :: rest =>
    if a = ':' ∧ b = ':' then some ([], rest)
    else match splitDoubleColon (b :: rest) with
      | some (l, r) => some (a :: l, r)
      | none => none

/-- The colon-separated groups of a `"::"`-free fragment (empty fragment means
no groups at all). -/
def groupsOf (s : List Char) : Option (List Nat) :=
  if s.isEmpty then some [] else (splitColon s).mapM group16

/-- Modelled from the spec: the textual IPv6 parse performed by
`s.parse::<Ipv6Addr>()` (standard library, outside this repository): eight
colon-separated 16-bit hexadecimal groups, with at most one `"::"` standing
for one or more zero groups.  (Trailing embedded-IPv4 forms are not used by
the spec and are not modelled.) -/
def parseIpv6Text (s : List Char) : Option Nat :=
  match splitDoubleColon s with
  | some (l, r) =>
    if (splitDoubleColon r).isSome then none
    else match groupsOf l, groupsOf r with
      | some lg, some rg =>
        if lg.length + rg.length ≤ 7 then
          some ((lg.foldl (fun a v => a * 65536 + v) 0) <<< (16 * (8 - lg.length)) +
                rg.foldl (fun a v => a * 65536 + v) 0)
        else none
      | _, _ => none
  | none =>
    match groupsOf s with
    | some g => if g.length = 8 then some (g.foldl (fun a v => a * 65536 + v) 0) else none
    | none => none

/-- `try_ipv4` (from `common_parse_fn!`): parse the address text, then mask it
down with `let mk = 32 - mask; (net >> mk) << mk`.  The subtraction is on `u8`
and the shifts are on `u32`, all unchecked in the source: `mask > 32` underflows
the subtraction and `mask = 0` shifts a `u32` by 32, so both panic (debug
profile) rather than produce a `ConfigError`. -/
def tryIpv4 (s : List Char) (mask : Option Nat) : Except RErr (Option Subnet) :=
  let mask := mask.getD 32
  match parseIpv4Text s with
  | none => .error (.config .parseErr)
  | some net =>
    match checkedSub 32 mask with
    | none => .error .panic
    | some mk =>
      match checkedShr 32 net mk with
      | none => .error .panic
      | some r =>
        match checkedShl 32 r mk with
        | none => .error .panic
        | some net2 => .ok (some ⟨Sum.inl net2, mask, 0⟩)

/-- `try_ipv6`: the same at width 128. -/
def tryIpv6 (s : List Char) (mask : Option Nat) : Except RErr (Option Subnet) :=
  let mask := mask.getD 128
  match parseIpv6Text s with
  | none => .error (.config .parseErr)
  | some net =>
    match checkedSub 128 mask with
    | none => .error .panic
    | some mk =>
      match checkedShr 128 net mk with
      | none => .error .panic
      | some r =>
        match checkedShl 128 r mk with
        | none => .error .panic
        | some net2 => .ok (some ⟨Sum.inr net2, mask, 0⟩)

/-- `Result::or_else` as used in `parse_subnet`: a `ConfigError` from the IPv4
attempt falls through to the IPv6 attempt, but a panic propagates. -/
def orElseCfg (a : Except RErr (Option Subnet)) (b : Unit → Except RErr (Option Subnet)) :
    Except RErr (Option Subnet) :=
  match a with
  | .ok v => .ok v
  | .error .panic => .error .panic
  | .error (.config _) => b ()

/-- `Subnet::parse_subnet`. -/
def parseSubnet (s0 : List Char) : Except RErr (Option Subnet) :=
  let s := prepareStr s0
  if s.isEmpty then .ok none
  else if s.contains '/' then
    match parseU8 ((s.dropWhile (fun c => c ≠ '/')).drop 1) with
    | none => .error (.config .parseErr)
    | some m =>
      orElseCfg (tryIpv4 (s.takeWhile (fun c => c ≠ '/')) (some m))
        (fun _ => tryIpv6 (s.takeWhile (fun c => c ≠ '/')) (some m))
  else orElseCfg (tryIpv4 s none) (fun _ => tryIpv6 s none)

/-- `Subnet::parse_range`.  `split[0]` / `split[1]` are raw indexing: when the
comma survives only inside the stripped comment the vector has one element and
`split[1]` panics.  The `_ => panic!("Error")` arm for mixed families is a
panic as well. -/
def parseRange (s : List Char) (v : List Subnet) (tag : Option Nat) :
    Except RErr (List Subnet) :=
  let parts := (splitComma (prepareStr s)).take 2
  match parseSubnet (parts.getD 0 []) with
  | .error e => .error e
  | .ok none => .error (.config .refValueRecursive)
  | .ok (some sf) =>
    match parts.get? 1 with
    | none => .error .panic
    | some p1 =>
      match parseSubnet p1 with
      | .error e => .error e
      | .ok none => .error (.config .refValueRecursive)
      | .ok (some st) =>
        match sf.net, st.net with
        | Sum.inl a, Sum.inl b => .ok (parseIpv4Range v a b tag)
        | Sum.inr a, Sum.inr b => .ok (parseIpv6Range v a b tag)
        | _, _ => .error .panic

/-- `Subnet::parse`. -/
def parseLine (s : List Char) (v : List Subnet) (tag : Option Nat) :
    Except RErr (List Subnet) :=
  if s.contains ',' then parseRange s v tag
  else match parseSubnet s with
    | .error e => .error e
    | .ok none => .ok v
    | .ok (some x) =>
      .ok (insertSet v (match tag with | some t => { x with tag := t } | none => x))

/-- One line of the `read_stdin` loop: `Subnet::parse(&line, self, None).ok()`
swallows a `ConfigError` (the set is unchanged, since `parse` only inserts
after all fallible steps); a panic aborts the run. -/
def processLine (v : List Subnet) (s : List Char) : Except RErr (List Subnet) :=
  match parseLine s v none with
  | .ok v2 => .ok v2
  | .error (.config _) => .ok v
  | .error .panic => .error .panic

/-- The line-reading loop of `read_stdin` over a list of input lines. -/
def readLines (ls : List (List Char)) : Except RErr (List Subnet) :=
  ls.foldlM processLine []

/-- The first block of `S` covering `a` (used to compare an arbitrary cover
against the splitter's output). -/
def pickCover (w : Nat) (S : List (Nat × Nat)) (a : Nat) : Nat × Nat :=
  (S.find? (fun b => decide (coversP w b a))).getD (0, 0)

/-!
## Helper lemmas about the set model
-/

/-- Membership after a `BTreeSet` insertion comes from the old set or is the
new element. -/
theorem mem_insertSet {x s : Subnet} : ∀ {l : List Subnet}, x ∈ insertSet l s → x ∈ l ∨ x = s := by
  intro l
  induction l with
  | nil => intro h; simp only [insertSet] at h; right; simpa using h
  | cons y ys ih =>
    intro h
    simp only [insertSet] at h
    by_cases h1 : s = y
    · rw [if_pos h1] at h; left; exact h
    · rw [if_neg h1] at h
      by_cases h2 : Subnet.lt s y = true
      · rw [if_pos h2] at h
        rcases List.mem_cons.mp h with h3 | h3
        · right; exact h3
        · left; exact h3
      · rw [if_neg h2] at h
        rcases List.mem_cons.mp h with h3 | h3
        · left; rw [h3]; exact List.mem_cons_self y ys
        · rcases ih h3 with h4 | h4
          · left; exact List.mem_cons_of_mem y h4
          · right; exact h4

/-- Every element surviving `shrink` has tag 0 (the rebuild keeps only tag-0
entries). -/
theorem shrink_mem_tag_zero {x : Subnet} {S : List Subnet} {mrg : Bool}
    (h : x ∈ shrink S mrg) : x.tag = 0 := by
  unfold shrink at h
  generalize shrinkLoop mrg S [] none = vec at h
  have main : ∀ (vec : List Subnet) (acc : List Subnet), (∀ y ∈ acc, y.tag = 0) →
      x ∈ vec.foldl (fun acc i => if i.tag = 0 then insertSet acc i else acc) acc →
      x.tag = 0 := by
    intro vec
    induction vec with
    | nil => intro acc hacc hx; exact hacc x hx
    | cons i rest ih =>
      intro acc hacc hx
      simp only [List.foldl_cons] at hx
      by_cases hi : i.tag = 0
      · rw [if_pos hi] at hx
        refine ih _ ?_ hx
        intro y hy
        rcases mem_insertSet hy with h1 | h1
        · exact hacc y h1
        · rw [h1]; exact hi
      · rw [if_neg hi] at hx
        exact ih _ hacc hx
  exact main vec [] (by intro y hy; cases hy) h

/-!
## Claim theorems (evaluation results on concrete inputs)
-/

/-- C2: `gap` does not compute the complement for every canonical set: on the
canonical one-block set `{128.0.0.0/1}` (obtained from the input line
`128.0.0.0/1`) the walk evaluates `s + (1 << (32 - mask))` as
`2^31 + 2^31`, which overflows `u32`, so the checked run aborts instead of
returning the complement `{0.0.0.0/1}`. -/
theorem gap_half_space_overflow :
    readLines ["128.0.0.0/1".data] = .ok [⟨Sum.inl 0x80000000, 1, 0⟩] ∧
    gapChecked [⟨Sum.inl 0x80000000, 1, 0⟩] = none := by
  constructor
  · decide
  · decide

/-- C6: the arithmetic of the public operations is not guarded.  Parsing the
in-range prefix length 0 evaluates `net >> (32 - 0)`, a `u32` shift by the full
bit width, so `0.0.0.0/0` faults; the full-space range line is accepted and
produces the mask-0 block, on which `gap` then evaluates `1u32 << 32`,
faulting as well. -/
theorem unguarded_arithmetic_faults :
    parseSubnet "0.0.0.0/0".data = .error .panic ∧
    readLines ["0.0.0.0,255.255.255.255".data] = .ok [⟨Sum.inl 0, 0, 0⟩] ∧
    gapChecked [⟨Sum.inl 0, 0, 0⟩] = none := by
  refine ⟨by decide, by decide, by decide⟩

/-- C7: an out-of-range prefix length is not rejected with a `RangeError`:
`1.2.3.4/33` reaches the unchecked `u8` subtraction `32 - 33`, which faults,
and the fault is not swallowed by the `.ok()` in the line loop — the whole
run aborts and the following well-formed line is never processed. -/
theorem prefix_out_of_range_panics :
    parseSubnet "1.2.3.4/33".data = .error .panic ∧
    readLines ["1.2.3.4/33".data, "5.6.7.8".data] = .error .panic := by
  refine ⟨by decide, by decide⟩

/-- C5 counterexample: a comment-only line containing the range separator is
not a successful no-op — `parse` sees the comma in the raw line, takes the
range path, and returns the `RefValueRecursiveError` `ConfigError` (it still
inserts nothing). -/
theorem comment_comma_line_is_error :
    prepareStr "#1,2".data = [] ∧
    parseLine "#1,2".data [] none = .error (.config .refValueRecursive) := by
  refine ⟨by decide, by decide⟩

/-- C3: the exclusion merge with `collapse = false` on the base set
`{1.1.1.0/24, 1.1.3.0/24, 2.2.2.0/24, 2.3.2.0/24}` and the exclusion set
`{0.0.0.0/8, 1.1.2.0/24}` returns the *empty* set, not the unchanged base:
every complement block carries tag 1 and is dropped by the rebuild, each
complement cover that contains a base block is retagged 2 and dropped, and
each base block is either skipped as contained or retagged 2 through its
equal-address complement twin. -/
theorem exclusion_scenario_result :
    mergeSets
      (shrink (insertSet (insertSet (insertSet (insertSet []
        ⟨Sum.inl 0x01010100, 24, 0⟩) ⟨Sum.inl 0x01010300, 24, 0⟩)
        ⟨Sum.inl 0x02020200, 24, 0⟩) ⟨Sum.inl 0x02030200, 24, 0⟩) true)
      (shrink (insertSet (insertSet [] ⟨Sum.inl 0x00000000, 8, 0⟩)
        ⟨Sum.inl 0x01010200, 24, 0⟩) true)
      false = some [] ∧
    mergeSets
      (shrink (insertSet (insertSet (insertSet (insertSet []
        ⟨Sum.inl 0x01010100, 24, 0⟩) ⟨Sum.inl 0x01010300, 24, 0⟩)
        ⟨Sum.inl 0x02020200, 24, 0⟩) ⟨Sum.inl 0x02030200, 24, 0⟩) true)
      (shrink (insertSet (insertSet [] ⟨Sum.inl 0x00000000, 8, 0⟩)
        ⟨Sum.inl 0x01010200, 24, 0⟩) true)
      false ≠ some [⟨Sum.inl 0x01010100, 24, 0⟩, ⟨Sum.inl 0x01010300, 24, 0⟩,
        ⟨Sum.inl 0x02020200, 24, 0⟩, ⟨Sum.inl 0x02030200, 24, 0⟩] := by
  refine ⟨by decide, by decide⟩

/-- C4 counterexample: the tag participates in the derived ordering and
equality — two Blocks equal in family, network and prefix length but with
different tags are distinct, and inserting both leaves two elements in the
set, not one. -/
theorem tag_breaks_dedup :
    (⟨Sum.inl 0, 32, 0⟩ : Subnet) ≠ ⟨Sum.inl 0, 32, 1⟩ ∧
    (insertSet (insertSet [] ⟨Sum.inl 0, 32, 0⟩) ⟨Sum.inl 0, 32, 1⟩).length = 2 := by
  refine ⟨by decide, by decide⟩

/-- C8 counterexample: a range line that cannot be split into two non-empty
fields is *not* a hard stop: `,1.2.3.4` yields a recoverable `ConfigError`,
the line loop swallows it, and the following line is still processed. -/
theorem empty_bound_range_line_continues :
    readLines [",1.2.3.4".data, "2.2.2.2".data] = .ok [⟨Sum.inl 0x02020202, 32, 0⟩] := by
  decide

/-- C8 (amended): among structurally broken range lines only the mixed-family
case is a hard stop (a panic, from `panic!("Error")`), while a line whose
bounds do not give two non-empty parseable fields produces the recoverable
`RefValueRecursiveError`, which the line loop swallows before continuing. -/
theorem range_line_failures :
    (∀ (v : List Subnet) (tag : Option Nat),
      parseLine "1.2.3.4,::1".data v tag = .error .panic) ∧
    (∀ (v : List Subnet) (tag : Option Nat),
      parseLine ",9.9.9.9".data v tag = .error (.config .refValueRecursive)) ∧
    readLines [",9.9.9.9".data, "2.2.2.2/31".data] = .ok [⟨Sum.inl 0x02020202, 31, 0⟩] := by
  refine ⟨fun v tag => rfl, fun v tag => rfl, by decide⟩

/-- C9 counterexample: inserting both sibling halves with equal *nonzero* tags
and canonicalizing does not yield the parent block — the sibling pass merges
them, but the rebuild keeps only tag-0 entries, so the result is empty. -/
theorem sibling_nonzero_tag_dropped :
    shrink (insertSet (insertSet [] ⟨Sum.inl 0x0A000000, 25, 1⟩)
      ⟨Sum.inl 0x0A000080, 25, 1⟩) true = [] ∧
    shrink (insertSet (insertSet [] ⟨Sum.inl 0x0A000000, 25, 1⟩)
      ⟨Sum.inl 0x0A000080, 25, 1⟩) true ≠ [⟨Sum.inl 0x0A000000, 24, 1⟩] := by
  refine ⟨by decide, by decide⟩

/-- Unfolding equation for `shrinkLoop`: the empty walk returns the vector. -/
theorem shrinkLoop_nil (mrg : Bool) (vec : List Subnet) (last : Option Subnet) :
    shrinkLoop mrg [] vec last = vec := rfl

/-- Unfolding equation for `shrinkLoop`: the first element always becomes the
cover. -/
theorem shrinkLoop_cons_none (mrg : Bool) (i : Subnet) (rest vec : List Subnet) :
    shrinkLoop mrg (i :: rest) vec none = shrinkLoop mrg rest (mergeVec vec i) (some i) := rfl

/-- Unfolding equation for `shrinkLoop`: a block contained in the cover retags
the last vector entry and is skipped. -/
theorem shrinkLoop_cons_contained (mrg : Bool) (i : Subnet) (rest vec : List Subnet)
    (l : Subnet) (h : l.contains i = true) :
    shrinkLoop mrg (i :: rest) vec (some l) =
      shrinkLoop mrg rest (setLastTag vec (if mrg then 0 else 2)) (some l) := by
  show (if l.contains i then shrinkLoop mrg rest (setLastTag vec (if mrg then 0 else 2)) (some l)
        else shrinkLoop mrg rest (mergeVec vec i) (some i)) = _
  rw [h]
  rfl

/-- Unfolding equation for `shrinkLoop`: a block not contained in the cover is
pushed (through the sibling merge) and becomes the new cover. -/
theorem shrinkLoop_cons_new (mrg : Bool) (i : Subnet) (rest vec : List Subnet)
    (l : Subnet) (h : l.contains i = false) :
    shrinkLoop mrg (i :: rest) vec (some l) =
      shrinkLoop mrg rest (mergeVec vec i) (some i) := by
  show (if l.contains i then shrinkLoop mrg rest (setLastTag vec (if mrg then 0 else 2)) (some l)
        else shrinkLoop mrg rest (mergeVec vec i) (some i)) = _
  rw [h]
  rfl

/-- C10: behavior of `shrink`: (1) every surviving element has tag 0;
(2) when the walk finds `b` contained in the current cover `c`, it is the
cover — the most recently pushed vector entry — whose tag is rewritten, to 0
for `merge = true` and to 2 for `merge = false`, so that with `merge = false`
a cover that contained a later block is itself dropped; (3) an element with a
nonzero tag (such as the tag-1 exclusion-complement blocks) does not survive
`shrink` unless retagged to 0 this way. -/
theorem shrink_tag_zero_behavior :
    (∀ (S : List Subnet) (mrg : Bool) (x : Subnet), x ∈ shrink S mrg → x.tag = 0) ∧
    (∀ c b : Subnet, c.contains b = true → Subnet.lt c b = true →
      shrink [c, b] false = [] ∧ shrink [c, b] true = [⟨c.net, c.mask, 0⟩]) ∧
    (∀ (x : Subnet) (mrg : Bool), x.tag ≠ 0 → shrink [x] mrg = []) := by
  refine ⟨fun S mrg x h => shrink_mem_tag_zero h, ?_, ?_⟩
  · intro c b hcon _
    have hmv : mergeVec [] c = [c] := rfl
    constructor
    · unfold shrink
      rw [shrinkLoop_cons_none, hmv, shrinkLoop_cons_contained false b [] [c] c hcon,
        shrinkLoop_nil]
      show List.foldl _ [] [{ c with tag := 2 }] = []
      simp only [List.foldl]
      rw [if_neg (by exact (by decide : (2 : Nat) ≠ 0))]
    · unfold shrink
      rw [shrinkLoop_cons_none, hmv, shrinkLoop_cons_contained true b [] [c] c hcon,
        shrinkLoop_nil]
      show List.foldl _ [] [{ c with tag := 0 }] = _
      simp only [List.foldl]
      rfl
  · intro x mrg hx
    unfold shrink
    rw [shrinkLoop_cons_none, (rfl : mergeVec [] x = [x]), shrinkLoop_nil]
    simp only [List.foldl]
    rw [if_neg hx]

/-- Closed instance of `shrink_tag_zero_behavior`: the cover `0.0.0.0/8`
containing `0.1.0.0/16` is dropped entirely by `shrink(false)` and kept
retagged 0 by `shrink(true)`. -/
theorem shrink_tag_zero_behavior_witness :
    shrink [⟨Sum.inl 0, 8, 5⟩, ⟨Sum.inl 0x00010000, 16, 0⟩] false = [] ∧
    shrink [⟨Sum.inl 0, 8, 5⟩, ⟨Sum.inl 0x00010000, 16, 0⟩] true = [⟨Sum.inl 0, 8, 0⟩] :=
  shrink_tag_zero_behavior.2.1 ⟨Sum.inl 0, 8, 5⟩ ⟨Sum.inl 0x00010000, 16, 0⟩
    (by decide) (by decide)

/-- C4 (amended): the derived total order compares family first (every IPv4
Block precedes every IPv6 Block), then the numeric network, then the prefix
length, and then the *tag* as a final tiebreaker; equality likewise includes
the tag, so inserting the same family/network/prefix with two different tags
leaves two elements in the set. -/
theorem subnet_order_and_equality :
    (∀ a ma ta b mb tb, Subnet.lt ⟨Sum.inl a, ma, ta⟩ ⟨Sum.inr b, mb, tb⟩ = true) ∧
    (∀ a b ma ta mb tb, a < b → Subnet.lt ⟨Sum.inl a, ma, ta⟩ ⟨Sum.inl b, mb, tb⟩ = true) ∧
    (∀ a ma mb ta tb, ma < mb → Subnet.lt ⟨Sum.inl a, ma, ta⟩ ⟨Sum.inl a, mb, tb⟩ = true) ∧
    (∀ a ma ta tb, ta < tb → Subnet.lt ⟨Sum.inl a, ma, ta⟩ ⟨Sum.inl a, ma, tb⟩ = true) ∧
    (∀ n m t1 t2, (Subnet.mk (Sum.inl n) m t1 = ⟨Sum.inl n, m, t2⟩) ↔ t1 = t2) ∧
    (∀ n m t1 t2, t1 ≠ t2 →
      (insertSet (insertSet [] ⟨Sum.inl n, m, t1⟩) ⟨Sum.inl n, m, t2⟩).length = 2) := by
  refine ⟨fun a ma ta b mb tb => rfl, ?_, ?_, ?_, ?_, ?_⟩
  · intro a b ma ta mb tb h
    simp [Subnet.lt, h]
  · intro a ma mb ta tb h
    simp [Subnet.lt, h]
  · intro a ma ta tb h
    simp [Subnet.lt, h]
  · intro n m t1 t2
    constructor
    · intro h
      exact (Subnet.mk.injEq _ _ _ _ _ _ ▸ h).2.2
    · intro h
      rw [h]
  · intro n m t1 t2 h
    have hne : (⟨Sum.inl n, m, t2⟩ : Subnet) ≠ ⟨Sum.inl n, m, t1⟩ := by
      intro he
      exact h ((Subnet.mk.injEq _ _ _ _ _ _ ▸ he).2.2).symm
    show (insertSet [⟨Sum.inl n, m, t1⟩] ⟨Sum.inl n, m, t2⟩).length = 2
    unfold insertSet
    rw [if_neg hne]
    by_cases hlt : Subnet.lt ⟨Sum.inl n, m, t2⟩ ⟨Sum.inl n, m, t1⟩ = true
    · rw [if_pos hlt]; rfl
    · rw [if_neg hlt]; rfl

/-- Closed instance of `subnet_order_and_equality`: two copies of `0.0.0.1/32`
differing only in tag stay two separate set elements. -/
theorem subnet_order_and_equality_witness :
    (insertSet (insertSet [] ⟨Sum.inl 1, 32, 3⟩) ⟨Sum.inl 1, 32, 4⟩).length = 2 :=
  subnet_order_and_equality.2.2.2.2.2 1 32 3 4 (by decide)

/-- C5 (amended): a line that is blank, or becomes empty after stripping the
comment and whitespace, contributes no Block; when it contains no `,` the
parse succeeds as a no-op, but when the raw line contains a `,` (even inside
the comment) the range path is taken and the parse returns the recoverable
`RefValueRecursiveError` — which the line loop swallows, so the run continues
with the set unchanged either way, and never crashes. -/
theorem blank_line_noop (s : List Char) (v : List Subnet) (tag : Option Nat)
    (h : prepareStr s = []) :
    processLine v s = .ok v ∧
    (s.contains ',' = false → parseLine s v tag = .ok v) ∧
    (s.contains ',' = true → parseLine s v tag = .error (.config .refValueRecursive)) := by
  have hsub : parseSubnet s = .ok none := by
    unfold parseSubnet
    rw [h]
    rfl
  have hrange : ∀ (v2 : List Subnet) (tg : Option Nat),
      parseRange s v2 tg = .error (.config .refValueRecursive) := by
    intro v2 tg
    unfold parseRange
    rw [h]
    rfl
  have hline : ∀ (v2 : List Subnet) (tg : Option Nat),
      parseLine s v2 tg = if s.contains ',' then .error (.config .refValueRecursive)
        else .ok v2 := by
    intro v2 tg
    unfold parseLine
    by_cases hc : s.contains ',' = true
    · rw [if_pos hc, if_pos hc, hrange]
    · rw [if_neg hc, if_neg hc, hsub]
  refine ⟨?_, ?_, ?_⟩
  · unfold processLine
    rw [hline]
    by_cases hc : s.contains ',' = true
    · rw [if_pos hc]
    · rw [if_neg hc]
  · intro hc
    rw [hline, if_neg (by rw [hc]; exact Bool.false_ne_true)]
  · intro hc
    rw [hline, if_pos hc]

/-- Closed instance of `blank_line_noop`: the comment-only line `# a,b` leaves
the set unchanged and the run alive. -/
theorem blank_line_noop_witness :
    processLine [] "  # a,b ".data = .ok [] ∧
    ("  # a,b ".data.contains ',' = false → parseLine "  # a,b ".data [] none = .ok []) ∧
    ("  # a,b ".data.contains ',' = true →
      parseLine "  # a,b ".data [] none = .error (.config .refValueRecursive)) :=
  blank_line_noop "  # a,b ".data [] none (by decide)

/-- Sibling-pair arithmetic shared by both families: for `2 ^ (n+1) ∣ net`,
the upper sibling is aligned, the lower sibling's shifted value is even, and
the two shifted values are consecutive. -/
theorem sibling_arith (n net : Nat) (hd2 : 2 ^ (n + 1) ∣ net) :
    ((net + 2 ^ n) >>> n) <<< n = net + 2 ^ n ∧
    (net >>> n) % 2 = 0 ∧
    (net >>> n) + 1 = (net + 2 ^ n) >>> n ∧
    net + 2 ^ n ≠ net := by
  have hpos : 0 < 2 ^ n := pow_pos (by norm_num) n
  have hd1 : 2 ^ n ∣ net := dvd_trans (pow_dvd_pow 2 (Nat.le_succ n)) hd2
  obtain ⟨q, hq⟩ := hd2
  have hdiv : net / 2 ^ n = 2 * q := by
    rw [hq, pow_succ, mul_assoc]
    exact Nat.mul_div_cancel_left (2 * q) hpos
  refine ⟨?_, ?_, ?_, ?_⟩
  · rw [Nat.shiftRight_eq_div_pow, Nat.shiftLeft_eq]
    exact Nat.div_mul_cancel (Dvd.dvd.add hd1 dvd_rfl)
  · rw [Nat.shiftRight_eq_div_pow, hdiv]
    exact Nat.mul_mod_right 2 q
  · rw [Nat.shiftRight_eq_div_pow, Nat.shiftRight_eq_div_pow]
    rw [Nat.add_div_right net hpos]
  · omega

/-- C9 (amended): inserting both sibling halves of any CIDR block *with tag 0*
and canonicalizing yields exactly the parent block with the prefix length
reduced by one (for both families); adjacent siblings with different tags are
never merged by the sibling-merge pass.  (With equal *nonzero* tags the
sibling pass still merges them, but the tag-0 rebuild then drops the parent —
see the counterexample.) -/
theorem sibling_merge_tagged :
    (∀ net m (mrg : Bool), m < 32 → net % 2 ^ (32 - m) = 0 →
      shrink (insertSet (insertSet [] ⟨Sum.inl net, m + 1, 0⟩)
        ⟨Sum.inl (net + 2 ^ (31 - m)), m + 1, 0⟩) mrg = [⟨Sum.inl net, m, 0⟩]) ∧
    (∀ net m (mrg : Bool), m < 128 → net % 2 ^ (128 - m) = 0 →
      shrink (insertSet (insertSet [] ⟨Sum.inr net, m + 1, 0⟩)
        ⟨Sum.inr (net + 2 ^ (127 - m)), m + 1, 0⟩) mrg = [⟨Sum.inr net, m, 0⟩]) ∧
    (∀ (vec : List Subnet) (l i : Subnet), l.tag ≠ i.tag →
      mergeVec (vec ++ [l]) i = vec ++ [l, i]) := by
  refine ⟨?_, ?_, ?_⟩
  · intro net m mrg hm hal
    have hwm1 : 32 - (m + 1) = 31 - m := by omega
    have hd2 : 2 ^ (31 - m + 1) ∣ net := by
      have he : 31 - m + 1 = 32 - m := by omega
      rw [he]; exact Nat.dvd_of_mod_eq_zero hal
    obtain ⟨e3, e2, e1, hne⟩ := sibling_arith (31 - m) net hd2
    have hneS : (⟨Sum.inl (net + 2 ^ (31 - m)), m + 1, 0⟩ : Subnet) ≠
        ⟨Sum.inl net, m + 1, 0⟩ := by
      intro he
      simp only [Subnet.mk.injEq, Sum.inl.injEq] at he
      exact hne he.1
    have hlt : Subnet.lt ⟨Sum.inl (net + 2 ^ (31 - m)), m + 1, 0⟩
        ⟨Sum.inl net, m + 1, 0⟩ = false := by
      show (decide (net + 2 ^ (31 - m) < net) || (decide (net + 2 ^ (31 - m) = net) &&
        (decide (m + 1 < m + 1) || (decide (m + 1 = m + 1) && decide ((0 : Nat) < 0))))) = false
      rw [decide_eq_false (by omega : ¬ (net + 2 ^ (31 - m) < net)),
        decide_eq_false (fun hx => hne hx)]
      rfl
    have hpair : insertSet (insertSet [] ⟨Sum.inl net, m + 1, 0⟩)
        ⟨Sum.inl (net + 2 ^ (31 - m)), m + 1, 0⟩ =
        [⟨Sum.inl net, m + 1, 0⟩, ⟨Sum.inl (net + 2 ^ (31 - m)), m + 1, 0⟩] := by
      show (if (⟨Sum.inl (net + 2 ^ (31 - m)), m + 1, 0⟩ : Subnet) = ⟨Sum.inl net, m + 1, 0⟩
          then [⟨Sum.inl net, m + 1, 0⟩]
          else if Subnet.lt ⟨Sum.inl (net + 2 ^ (31 - m)), m + 1, 0⟩ ⟨Sum.inl net, m + 1, 0⟩
          then ⟨Sum.inl (net + 2 ^ (31 - m)), m + 1, 0⟩ :: [⟨Sum.inl net, m + 1, 0⟩]
          else ⟨Sum.inl net, m + 1, 0⟩ ::
            insertSet [] ⟨Sum.inl (net + 2 ^ (31 - m)), m + 1, 0⟩) = _
      rw [if_neg hneS, if_neg (by rw [hlt]; exact Bool.false_ne_true)]
      rfl
    have hcon : Subnet.contains ⟨Sum.inl net, m + 1, 0⟩
        ⟨Sum.inl (net + 2 ^ (31 - m)), m + 1, 0⟩ = false := by
      show (if m + 1 > m + 1 then false else if m + 1 = 0 then true
        else decide (net = ((net + 2 ^ (31 - m)) >>> (32 - (m + 1))) <<< (32 - (m + 1)))) = false
      rw [if_neg (lt_irrefl (m + 1)), if_neg (Nat.succ_ne_zero m), hwm1, e3]
      exact decide_eq_false (fun hx => hne hx.symm)
    have hnext : Subnet.isNext ⟨Sum.inl net, m + 1, 0⟩
        ⟨Sum.inl (net + 2 ^ (31 - m)), m + 1, 0⟩ = true := by
      show (if m + 1 ≠ m + 1 then false
        else decide ((net >>> (32 - (m + 1))) % 2 = 0) &&
          decide ((net >>> (32 - (m + 1))) + 1 = (net + 2 ^ (31 - m)) >>> (32 - (m + 1)))) = true
      rw [if_neg (fun hc => hc rfl), hwm1, decide_eq_true e2, decide_eq_true e1]
      rfl
    have hmergeR : mergeVecR [⟨Sum.inl net, m + 1, 0⟩] ⟨Sum.inl (net + 2 ^ (31 - m)), m + 1, 0⟩
        = [⟨Sum.inl net, m, 0⟩] := by
      show (if decide ((0 : Nat) = 0) && Subnet.isNext ⟨Sum.inl net, m + 1, 0⟩
            ⟨Sum.inl (net + 2 ^ (31 - m)), m + 1, 0⟩
          then mergeVecR [] ⟨Sum.inl net, m + 1 - 1, 0⟩
          else ⟨Sum.inl (net + 2 ^ (31 - m)), m + 1, 0⟩ :: ⟨Sum.inl net, m + 1, 0⟩ :: []) = _
      rw [hnext]
      rfl
    have hmerge : mergeVec [⟨Sum.inl net, m + 1, 0⟩] ⟨Sum.inl (net + 2 ^ (31 - m)), m + 1, 0⟩
        = [⟨Sum.inl net, m, 0⟩] := by
      show (mergeVecR [⟨Sum.inl net, m + 1, 0⟩]
        ⟨Sum.inl (net + 2 ^ (31 - m)), m + 1, 0⟩).reverse = _
      rw [hmergeR]
      rfl
    rw [hpair]
    unfold shrink
    rw [shrinkLoop_cons_none]
    have hmv0 : mergeVec [] (⟨Sum.inl net, m + 1, 0⟩ : Subnet) = [⟨Sum.inl net, m + 1, 0⟩] := rfl
    rw [hmv0, shrinkLoop_cons_new mrg _ [] [⟨Sum.inl net, m + 1, 0⟩] _ hcon, hmerge,
      shrinkLoop_nil]
    rfl
  · intro net m mrg hm hal
    have hwm1 : 128 - (m + 1) = 127 - m := by omega
    have hd2 : 2 ^ (127 - m + 1) ∣ net := by
      have he : 127 - m + 1 = 128 - m := by omega
      rw [he]; exact Nat.dvd_of_mod_eq_zero hal
    obtain ⟨e3, e2, e1, hne⟩ := sibling_arith (127 - m) net hd2
    have hneS : (⟨Sum.inr (net + 2 ^ (127 - m)), m + 1, 0⟩ : Subnet) ≠
        ⟨Sum.inr net, m + 1, 0⟩ := by
      intro he
      simp only [Subnet.mk.injEq, Sum.inr.injEq] at he
      exact hne he.1
    have hlt : Subnet.lt ⟨Sum.inr (net + 2 ^ (127 - m)), m + 1, 0⟩
        ⟨Sum.inr net, m + 1, 0⟩ = false := by
      show (decide (net + 2 ^ (127 - m) < net) || (decide (net + 2 ^ (127 - m) = net) &&
        (decide (m + 1 < m + 1) || (decide (m + 1 = m + 1) && decide ((0 : Nat) < 0))))) = false
      rw [decide_eq_false (by omega : ¬ (net + 2 ^ (127 - m) < net)),
        decide_eq_false (fun hx => hne hx)]
      rfl
    have hpair : insertSet (insertSet [] ⟨Sum.inr net, m + 1, 0⟩)
        ⟨Sum.inr (net + 2 ^ (127 - m)), m + 1, 0⟩ =
        [⟨Sum.inr net, m + 1, 0⟩, ⟨Sum.inr (net + 2 ^ (127 - m)), m + 1, 0⟩] := by
      show (if (⟨Sum.inr (net + 2 ^ (127 - m)), m + 1, 0⟩ : Subnet) = ⟨Sum.inr net, m + 1, 0⟩
          then [⟨Sum.inr net, m + 1, 0⟩]
          else if Subnet.lt ⟨Sum.inr (net + 2 ^ (127 - m)), m + 1, 0⟩ ⟨Sum.inr net, m + 1, 0⟩
          then ⟨Sum.inr (net + 2 ^ (127 - m)), m + 1, 0⟩ :: [⟨Sum.inr net, m + 1, 0⟩]
          else ⟨Sum.inr net, m + 1, 0⟩ ::
            insertSet [] ⟨Sum.inr (net + 2 ^ (127 - m)), m + 1, 0⟩) = _
      rw [if_neg hneS, if_neg (by rw [hlt]; exact Bool.false_ne_true)]
      rfl
    have hcon : Subnet.contains ⟨Sum.inr net, m + 1, 0⟩
        ⟨Sum.inr (net + 2 ^ (127 - m)), m + 1, 0⟩ = false := by
      show (if m + 1 > m + 1 then false else if m + 1 = 0 then true
        else decide (net = ((net + 2 ^ (127 - m)) >>> (128 - (m + 1))) <<< (128 - (m + 1)))) = false
      rw [if_neg (lt_irrefl (m + 1)), if_neg (Nat.succ_ne_zero m), hwm1, e3]
      exact decide_eq_false (fun hx => hne hx.symm)
    have hnext : Subnet.isNext ⟨Sum.inr net, m + 1, 0⟩
        ⟨Sum.inr (net + 2 ^ (127 - m)), m + 1, 0⟩ = true := by
      show (if m + 1 ≠ m + 1 then false
        else decide ((net >>> (128 - (m + 1))) % 2 = 0) &&
          decide ((net >>> (128 - (m + 1))) + 1 = (net + 2 ^ (127 - m)) >>> (128 - (m + 1)))) = true
      rw [if_neg (fun hc => hc rfl), hwm1, decide_eq_true e2, decide_eq_true e1]
      rfl
    have hmergeR : mergeVecR [⟨Sum.inr net, m + 1, 0⟩] ⟨Sum.inr (net + 2 ^ (127 - m)), m + 1, 0⟩
        = [⟨Sum.inr net, m, 0⟩] := by
      show (if decide ((0 : Nat) = 0) && Subnet.isNext ⟨Sum.inr net, m + 1, 0⟩
            ⟨Sum.inr (net + 2 ^ (127 - m)), m + 1, 0⟩
          then mergeVecR [] ⟨Sum.inr net, m + 1 - 1, 0⟩
          else ⟨Sum.inr (net + 2 ^ (127 - m)), m + 1, 0⟩ :: ⟨Sum.inr net, m + 1, 0⟩ :: []) = _
      rw [hnext]
      rfl
    have hmerge : mergeVec [⟨Sum.inr net, m + 1, 0⟩] ⟨Sum.inr (net + 2 ^ (127 - m)), m + 1, 0⟩
        = [⟨Sum.inr net, m, 0⟩] := by
      show (mergeVecR [⟨Sum.inr net, m + 1, 0⟩]
        ⟨Sum.inr (net + 2 ^ (127 - m)), m + 1, 0⟩).reverse = _
      rw [hmergeR]
      rfl
    rw [hpair]
    unfold shrink
    rw [shrinkLoop_cons_none]
    have hmv0 : mergeVec [] (⟨Sum.inr net, m + 1, 0⟩ : Subnet) = [⟨Sum.inr net, m + 1, 0⟩] := rfl
    rw [hmv0, shrinkLoop_cons_new mrg _ [] [⟨Sum.inr net, m + 1, 0⟩] _ hcon, hmerge,
      shrinkLoop_nil]
    rfl
  · intro vec l i h
    unfold mergeVec
    rw [List.reverse_append]
    show (mergeVecR (l :: vec.reverse) i).reverse = vec ++ [l, i]
    have hstep : mergeVecR (l :: vec.reverse) i = i :: l :: vec.reverse := by
      show (if decide (l.tag = i.tag) && l.isNext i
          then mergeVecR vec.reverse { l with mask := l.mask - 1 }
          else i :: l :: vec.reverse) = _
      rw [decide_eq_false h]
      rfl
    rw [hstep]
    simp

/-- Closed instance of `sibling_merge_tagged`: the tag-0 halves `10.0.0.0/25`
and `10.0.0.128/25` canonicalize to exactly `10.0.0.0/24`. -/
theorem sibling_merge_tagged_witness :
    shrink (insertSet (insertSet [] ⟨Sum.inl 0x0A000000, 24 + 1, 0⟩)
      ⟨Sum.inl (0x0A000000 + 2 ^ (31 - 24)), 24 + 1, 0⟩) true = [⟨Sum.inl 0x0A000000, 24, 0⟩] :=
  sibling_merge_tagged.1 0x0A000000 24 true (by decide) (by decide)

/-!
## Correctness of the range splitter
-/

/-- The splitter emits nothing when `to < from` (this is the loop guard
`while from <= to`). -/
theorem rangeGo_nil (w : Nat) : ∀ (fuel mask f t : Nat), t < f →
    rangeGo w fuel mask f t = [] := by
  intro fuel mask f t h
  match fuel with
  | 0 => rfl
  | fuel + 1 =>
    show (if t < f then [] else _) = []
    rw [if_pos h]

/-- Membership in a conditional singleton. -/
theorem mem_ite_singleton {α : Type} {c : Prop} [Decidable c] {x b : α}
    (h : b ∈ (if c then [x] else [])) : b = x ∧ c := by
  by_cases hc : c
  · rw [if_pos hc] at h
    exact ⟨List.mem_singleton.mp h, hc⟩
  · rw [if_neg hc] at h
    cases h

/-- Specification of the inner halving loop: the result level does not rise,
both end products `from * 2^(w-mask)` and `(to+1) * 2^(w-mask)` are
preserved, the bound `to < 2^mask` is preserved, and when the loop test holds
at entry the level strictly drops. -/
theorem innerShift_spec (w : Nat) : ∀ (m f t : Nat), m ≤ w →
    (innerShift m f t).1 ≤ m ∧
    (innerShift m f t).2.1 * 2 ^ (w - (innerShift m f t).1) = f * 2 ^ (w - m) ∧
    ((innerShift m f t).2.2 + 1) * 2 ^ (w - (innerShift m f t).1) = (t + 1) * 2 ^ (w - m) ∧
    (t < 2 ^ m → (innerShift m f t).2.2 < 2 ^ (innerShift m f t).1) ∧
    (f % 2 = 0 → t % 2 = 1 → 1 ≤ m → (innerShift m f t).1 < m) := by
  intro m
  induction m with
  | zero =>
    intro f t _
    refine ⟨le_refl 0, rfl, rfl, fun h => h, fun _ _ h => absurd h (by omega)⟩
  | succ m ih =>
    intro f t hm
    by_cases hc : f % 2 = 0 ∧ t % 2 = 1
    · have hred : innerShift (m + 1) f t = innerShift m (f / 2) (t / 2) := by
        show (if f % 2 = 0 ∧ t % 2 = 1 then innerShift m (f / 2) (t / 2) else (m + 1, f, t)) = _
        rw [if_pos hc]
      rw [hred]
      obtain ⟨ih1, ih2, ih3, ih4, ih5⟩ := ih (f / 2) (t / 2) (le_trans (Nat.le_succ m) hm)
      have hw : 2 ^ (w - m) = 2 ^ (w - (m + 1)) * 2 := by
        have he : w - m = (w - (m + 1)) + 1 := by omega
        rw [he, pow_succ]
      have hf2 : f / 2 * 2 = f := Nat.div_mul_cancel (Nat.dvd_of_mod_eq_zero hc.1)
      have ht2 : (t / 2 + 1) * 2 = t + 1 := by omega
      refine ⟨le_trans ih1 (Nat.le_succ m), ?_, ?_, ?_,
        fun _ _ _ => lt_of_le_of_lt ih1 (Nat.lt_succ_self m)⟩
      · rw [ih2, hw, ← mul_assoc, mul_right_comm, hf2]
      · rw [ih3, hw, ← mul_assoc, mul_right_comm, ht2]
      · intro ht
        refine ih4 ?_
        omega
    · have hred : innerShift (m + 1) f t = (m + 1, f, t) := by
        show (if f % 2 = 0 ∧ t % 2 = 1 then innerShift m (f / 2) (t / 2) else (m + 1, f, t)) = _
        rw [if_neg hc]
      rw [hred]
      exact ⟨le_refl _, rfl, rfl, fun h => h, fun h1 h2 _ => absurd ⟨h1, h2⟩ hc⟩

/-- Main invariant proof for the splitter loop: under the loop invariants
(`mask` within the width, enough fuel, `to` within `mask` bits, and the
current window `[from * 2^(w-mask), (to+1) * 2^(w-mask))` sitting inside the
original request `[F, T]` with both end gaps smaller than the current block
size), the emitted blocks are well-formed aligned blocks inside the window,
they cover the whole window, they are pairwise disjoint, and each one is
maximal in `[F, T]` (its parent block does not fit in `[F, T]`). -/
theorem rangeGo_spec (w F T : Nat) : ∀ (fuel mask f t : Nat),
    mask ≤ w → mask < fuel → t < 2 ^ mask → f ≤ t →
    F ≤ f * 2 ^ (w - mask) →
    f * 2 ^ (w - mask) < F + 2 ^ (w - mask) →
    (t + 1) * 2 ^ (w - mask) ≤ T + 1 →
    T + 1 < (t + 1) * 2 ^ (w - mask) + 2 ^ (w - mask) →
    (∀ b ∈ rangeGo w fuel mask f t,
        b.2 ≤ w ∧ b.1 % 2 ^ (w - b.2) = 0 ∧
        f * 2 ^ (w - mask) ≤ b.1 ∧ b.1 + 2 ^ (w - b.2) ≤ (t + 1) * 2 ^ (w - mask)) ∧
    (∀ a, f * 2 ^ (w - mask) ≤ a → a < (t + 1) * 2 ^ (w - mask) →
        ∃ b ∈ rangeGo w fuel mask f t, coversP w b a) ∧
    List.Pairwise (disjB w) (rangeGo w fuel mask f t) ∧
    (∀ b ∈ rangeGo w fuel mask f t, maximalIn w F T b) := by
  intro fuel
  induction fuel with
  | zero => intro mask f t _ hmf; exact absurd hmf (by omega)
  | succ fuel ih =>
    intro mask f t hmw hmf ht hft hF1 hF2 hT1 hT2
    have hB : 0 < 2 ^ (w - mask) := pow_pos (by norm_num) _
    have hone : (t + 1) * 2 ^ (w - mask) = t * 2 ^ (w - mask) + 2 ^ (w - mask) := by ring
    by_cases hfe : f = t
    · subst hfe
      have hL : rangeGo w (fuel + 1) mask f f =
          [((if f ≠ 0 ∨ 0 < mask then f <<< (w - mask) else f), mask)] := by
        show (if f < f then [] else if f = f then
          [((if f ≠ 0 ∨ 0 < mask then f <<< (w - mask) else f), mask)] else _) = _
        rw [if_neg (lt_irrefl f), if_pos rfl]
      have hnet : (if f ≠ 0 ∨ 0 < mask then f <<< (w - mask) else f) = f * 2 ^ (w - mask) := by
        by_cases hc : f ≠ 0 ∨ 0 < mask
        · rw [if_pos hc, Nat.shiftLeft_eq]
        · push_neg at hc
          rw [if_neg (by push_neg; exact hc), hc.1, zero_mul]
      rw [hL, hnet]
      refine ⟨?_, ?_, ?_, ?_⟩
      · intro b hb
        rw [List.mem_singleton] at hb
        subst hb
        refine ⟨hmw, Nat.mul_mod_left _ _, le_refl _, ?_⟩
        show f * 2 ^ (w - mask) + 2 ^ (w - mask) ≤ _
        omega
      · intro a ha1 ha2
        refine ⟨(f * 2 ^ (w - mask), mask), List.mem_singleton_self _, ?_⟩
        show f * 2 ^ (w - mask) ≤ a ∧ a < f * 2 ^ (w - mask) + blocksize w mask
        unfold blocksize
        omega
      · simp
      · intro b hb
        rw [List.mem_singleton] at hb
        subst hb
        intro hm1
        simp only [maximalIn, parentNet, blocksize] at *
        intro hcc
        obtain ⟨c1, c2⟩ := hcc
        have hmod : f * 2 ^ (w - mask) % (2 * 2 ^ (w - mask)) = f % 2 * 2 ^ (w - mask) :=
          Nat.mul_mod_mul_right (2 ^ (w - mask)) f 2
        rw [hmod] at c1 c2
        by_cases hpar : f % 2 = 1
        · rw [hpar, one_mul] at c1 c2
          have hfB : 2 ^ (w - mask) ≤ f * 2 ^ (w - mask) := by
            have h1f : 1 ≤ f := by omega
            calc 2 ^ (w - mask) = 1 * 2 ^ (w - mask) := (one_mul _).symm
              _ ≤ f * 2 ^ (w - mask) := Nat.mul_le_mul_right _ h1f
          omega
        · have hpar0 : f % 2 = 0 := by omega
          rw [hpar0, zero_mul, Nat.sub_zero] at c1 c2
          omega
    · -- main peel-and-halve step: f < t
      have hflt : f < t := lt_of_le_of_ne hft hfe
      have hmask1 : 1 ≤ mask := by
        by_contra hc
        have hm0 : mask = 0 := by omega
        rw [hm0, pow_zero] at ht
        omega
      have hL : rangeGo w (fuel + 1) mask f t =
          (if f % 2 = 1 then [(f <<< (w - mask), mask)] else []) ++
          ((if t % 2 = 0 then [(t <<< (w - mask), mask)] else []) ++
          rangeGo w fuel
            (innerShift mask (if f % 2 = 1 then f + 1 else f) (if t % 2 = 0 then t - 1 else t)).1
            (innerShift mask (if f % 2 = 1 then f + 1 else f) (if t % 2 = 0 then t - 1 else t)).2.1
            (innerShift mask (if f % 2 = 1 then f + 1 else f)
              (if t % 2 = 0 then t - 1 else t)).2.2) := by
        show (if t < f then [] else if f = t then _ else _) = _
        rw [if_neg (by omega), if_neg hfe]
        exact (List.append_assoc _ _ _)
      rw [hL]
      set f1 := if f % 2 = 1 then f + 1 else f with hf1def
      set t1 := if t % 2 = 0 then t - 1 else t with ht1def
      obtain ⟨is1, is2, is3, is4, is5⟩ := innerShift_spec w mask f1 t1 hmw
      set m2 := (innerShift mask f1 t1).1 with hm2def
      set ff2 := (innerShift mask f1 t1).2.1 with hff2def
      set tt2 := (innerShift mask f1 t1).2.2 with htt2def
      have hf1par : f1 % 2 = 0 := by
        rw [hf1def]
        rcases Nat.mod_two_eq_zero_or_one f with hp | hp
        · rw [if_neg (by omega)]; exact hp
        · rw [if_pos hp]; omega
      have ht1par : t1 % 2 = 1 := by
        rw [ht1def]
        rcases Nat.mod_two_eq_zero_or_one t with hp | hp
        · rw [if_pos hp]; omega
        · rw [if_neg (by omega)]; exact hp
      have hf1ge : f ≤ f1 := by rw [hf1def]; split <;> omega
      have hf1le1 : f1 ≤ f + 1 := by rw [hf1def]; split <;> omega
      have ht1le : t1 ≤ t := by rw [ht1def]; split <;> omega
      have ht1ge : t ≤ t1 + 1 := by rw [ht1def]; split <;> omega
      have hf1t1 : f1 ≤ t1 + 1 := by
        rw [hf1def, ht1def]; split <;> split <;> omega
      have ht1lt2 : t1 < 2 ^ mask := by omega
      have hp1 : m2 < mask := is5 hf1par ht1par hmask1
      have hp1w : m2 ≤ w := by omega
      have hp1f : m2 < fuel := by omega
      have ht2lt : tt2 < 2 ^ m2 := is4 ht1lt2
      have hB2 : 0 < 2 ^ (w - m2) := pow_pos (by norm_num) _
      have hBB2 : 2 * 2 ^ (w - mask) ≤ 2 ^ (w - m2) := by
        have h1 : w - mask + 1 ≤ w - m2 := by omega
        calc 2 * 2 ^ (w - mask) = 2 ^ (w - mask + 1) := by rw [pow_succ]; ring
          _ ≤ 2 ^ (w - m2) := Nat.pow_le_pow_right (by norm_num) h1
      have hq1 : f * 2 ^ (w - mask) ≤ f1 * 2 ^ (w - mask) := Nat.mul_le_mul_right _ hf1ge
      have hq2 : f1 * 2 ^ (w - mask) ≤ (f + 1) * 2 ^ (w - mask) := Nat.mul_le_mul_right _ hf1le1
      have hq3 : (t1 + 1) * 2 ^ (w - mask) ≤ (t + 1) * 2 ^ (w - mask) :=
        Nat.mul_le_mul_right _ (by omega)
      have hq4 : (t + 1) * 2 ^ (w - mask) ≤ (t1 + 1 + 1) * 2 ^ (w - mask) :=
        Nat.mul_le_mul_right _ (by omega)
      have hq5 : (f + 1) * 2 ^ (w - mask) ≤ (t + 1) * 2 ^ (w - mask) :=
        Nat.mul_le_mul_right _ (by omega)
      have hq6 : f * 2 ^ (w - mask) ≤ t * 2 ^ (w - mask) := Nat.mul_le_mul_right _ (by omega)
      have hq7 : (f + 1) * 2 ^ (w - mask) ≤ t * 2 ^ (w - mask) :=
        Nat.mul_le_mul_right _ (by omega)
      have hr1 : (f + 1) * 2 ^ (w - mask) = f * 2 ^ (w - mask) + 2 ^ (w - mask) := by ring
      have hr2 : (t1 + 1 + 1) * 2 ^ (w - mask) = (t1 + 1) * 2 ^ (w - mask) + 2 ^ (w - mask) := by
        ring
      -- the recursive call: its window is [f1 * 2^(w-mask), (t1+1) * 2^(w-mask))
      have hrecP : ∀ b ∈ rangeGo w fuel m2 ff2 tt2,
          b.2 ≤ w ∧ b.1 % 2 ^ (w - b.2) = 0 ∧
          f1 * 2 ^ (w - mask) ≤ b.1 ∧
          b.1 + 2 ^ (w - b.2) ≤ (t1 + 1) * 2 ^ (w - mask) := by
        rcases le_or_lt f1 t1 with hff | hff
        · have hf2t2 : ff2 ≤ tt2 := by
            by_contra hc
            have h1 : tt2 + 1 ≤ ff2 := by omega
            have h2 := Nat.mul_le_mul_right (2 ^ (w - m2)) h1
            rw [is2, is3] at h2
            have h3 := Nat.le_of_mul_le_mul_right h2 hB
            omega
          obtain ⟨P1, _, _, _⟩ := ih m2 ff2 tt2 hp1w hp1f ht2lt hf2t2
            (by rw [is2]; omega) (by rw [is2]; omega)
            (by rw [is3]; omega) (by rw [is3]; omega)
          intro b hb
          obtain ⟨w1, w2, w3, w4⟩ := P1 b hb
          rw [is2] at w3
          rw [is3] at w4
          exact ⟨w1, w2, w3, w4⟩
        · have hf1e : f1 = t1 + 1 := by omega
          have he1 : ff2 * 2 ^ (w - m2) = (tt2 + 1) * 2 ^ (w - m2) := by
            rw [is2, is3, hf1e]
          have he2 : ff2 = tt2 + 1 := Nat.eq_of_mul_eq_mul_right hB2 he1
          rw [rangeGo_nil w fuel m2 ff2 tt2 (by omega)]
          intro b hb
          cases hb
      have hrecQ : ∀ a, f1 * 2 ^ (w - mask) ≤ a → a < (t1 + 1) * 2 ^ (w - mask) →
          ∃ b ∈ rangeGo w fuel m2 ff2 tt2, coversP w b a := by
        rcases le_or_lt f1 t1 with hff | hff
        · have hf2t2 : ff2 ≤ tt2 := by
            by_contra hc
            have h1 : tt2 + 1 ≤ ff2 := by omega
            have h2 := Nat.mul_le_mul_right (2 ^ (w - m2)) h1
            rw [is2, is3] at h2
            have h3 := Nat.le_of_mul_le_mul_right h2 hB
            omega
          obtain ⟨_, Q1, _, _⟩ := ih m2 ff2 tt2 hp1w hp1f ht2lt hf2t2
            (by rw [is2]; omega) (by rw [is2]; omega)
            (by rw [is3]; omega) (by rw [is3]; omega)
          intro a h1 h2
          exact Q1 a (by rw [is2]; exact h1) (by rw [is3]; exact h2)
        · intro a h1 h2
          exfalso
          have hf1e : f1 = t1 + 1 := by omega
          rw [hf1e] at h1
          omega
      have hrecR : List.Pairwise (disjB w) (rangeGo w fuel m2 ff2 tt2) := by
        rcases le_or_lt f1 t1 with hff | hff
        · have hf2t2 : ff2 ≤ tt2 := by
            by_contra hc
            have h1 : tt2 + 1 ≤ ff2 := by omega
            have h2 := Nat.mul_le_mul_right (2 ^ (w - m2)) h1
            rw [is2, is3] at h2
            have h3 := Nat.le_of_mul_le_mul_right h2 hB
            omega
          obtain ⟨_, _, R1, _⟩ := ih m2 ff2 tt2 hp1w hp1f ht2lt hf2t2
            (by rw [is2]; omega) (by rw [is2]; omega)
            (by rw [is3]; omega) (by rw [is3]; omega)
          exact R1
        · have hf1e : f1 = t1 + 1 := by omega
          have he1 : ff2 * 2 ^ (w - m2) = (tt2 + 1) * 2 ^ (w - m2) := by
            rw [is2, is3, hf1e]
          have he2 : ff2 = tt2 + 1 := Nat.eq_of_mul_eq_mul_right hB2 he1
          rw [rangeGo_nil w fuel m2 ff2 tt2 (by omega)]
          exact List.Pairwise.nil
      have hrecM : ∀ b ∈ rangeGo w fuel m2 ff2 tt2, maximalIn w F T b := by
        rcases le_or_lt f1 t1 with hff | hff
        · have hf2t2 : ff2 ≤ tt2 := by
            by_contra hc
            have h1 : tt2 + 1 ≤ ff2 := by omega
            have h2 := Nat.mul_le_mul_right (2 ^ (w - m2)) h1
            rw [is2, is3] at h2
            have h3 := Nat.le_of_mul_le_mul_right h2 hB
            omega
          obtain ⟨_, _, _, M1⟩ := ih m2 ff2 tt2 hp1w hp1f ht2lt hf2t2
            (by rw [is2]; omega) (by rw [is2]; omega)
            (by rw [is3]; omega) (by rw [is3]; omega)
          exact M1
        · have hf1e : f1 = t1 + 1 := by omega
          have he1 : ff2 * 2 ^ (w - m2) = (tt2 + 1) * 2 ^ (w - m2) := by
            rw [is2, is3, hf1e]
          have he2 : ff2 = tt2 + 1 := Nat.eq_of_mul_eq_mul_right hB2 he1
          rw [rangeGo_nil w fuel m2 ff2 tt2 (by omega)]
          intro b hb
          cases hb
      have hAmem : ∀ b ∈ (if f % 2 = 1 then [(f <<< (w - mask), mask)] else []),
          b = (f * 2 ^ (w - mask), mask) ∧ f % 2 = 1 := by
        intro b hb
        obtain ⟨hb1, hb2⟩ := mem_ite_singleton hb
        rw [Nat.shiftLeft_eq] at hb1
        exact ⟨hb1, hb2⟩
      have hBlmem : ∀ b ∈ (if t % 2 = 0 then [(t <<< (w - mask), mask)] else []),
          b = (t * 2 ^ (w - mask), mask) ∧ t % 2 = 0 := by
        intro b hb
        obtain ⟨hb1, hb2⟩ := mem_ite_singleton hb
        rw [Nat.shiftLeft_eq] at hb1
        exact ⟨hb1, hb2⟩
      have hf1odd : f % 2 = 1 → f1 = f + 1 := by
        intro h; rw [hf1def, if_pos h]
      have ht1even : t % 2 = 0 → t1 + 1 = t := by
        intro h; rw [ht1def, if_pos h]; omega
      refine ⟨?_, ?_, ?_, ?_⟩
      · -- well-formed and inside the window
        intro b hb
        rcases List.mem_append.mp hb with hA | hBC
        · obtain ⟨rfl, hfo⟩ := hAmem b hA
          exact ⟨hmw, Nat.mul_mod_left _ _, le_refl _, by
            show f * 2 ^ (w - mask) + 2 ^ (w - mask) ≤ _
            omega⟩
        · rcases List.mem_append.mp hBC with hBl | hrec
          · obtain ⟨rfl, hto⟩ := hBlmem b hBl
            exact ⟨hmw, Nat.mul_mod_left _ _, hq6, by
              show t * 2 ^ (w - mask) + 2 ^ (w - mask) ≤ _
              omega⟩
          · obtain ⟨w1, w2, w3, w4⟩ := hrecP b hrec
            exact ⟨w1, w2, by omega, by omega⟩
      · -- coverage
        intro a ha1 ha2
        by_cases hca : a < f1 * 2 ^ (w - mask)
        · have hfo : f % 2 = 1 := by
            rcases Nat.mod_two_eq_zero_or_one f with hp | hp
            · exfalso
              rw [hf1def, if_neg (by omega)] at hca
              omega
            · exact hp
          refine ⟨(f * 2 ^ (w - mask), mask), ?_, ?_⟩
          · apply List.mem_append.mpr
            left
            rw [if_pos hfo, Nat.shiftLeft_eq]
            exact List.mem_singleton_self _
          · have hf1v : f1 = f + 1 := hf1odd hfo
            rw [hf1v] at hca
            show f * 2 ^ (w - mask) ≤ a ∧ a < f * 2 ^ (w - mask) + blocksize w mask
            unfold blocksize
            omega
        · by_cases hcb : a < (t1 + 1) * 2 ^ (w - mask)
          · obtain ⟨b, hb, hcov⟩ := hrecQ a (by omega) hcb
            exact ⟨b, List.mem_append.mpr (Or.inr (List.mem_append.mpr (Or.inr hb))), hcov⟩
          · have hto : t % 2 = 0 := by
              rcases Nat.mod_two_eq_zero_or_one t with hp | hp
              · exact hp
              · exfalso
                rw [ht1def, if_neg (by omega)] at hcb
                omega
            have htv : t1 + 1 = t := ht1even hto
            have htv2 : (t1 + 1) * 2 ^ (w - mask) = t * 2 ^ (w - mask) := by rw [htv]
            refine ⟨(t * 2 ^ (w - mask), mask), ?_, ?_⟩
            · apply List.mem_append.mpr
              right
              apply List.mem_append.mpr
              left
              rw [if_pos hto, Nat.shiftLeft_eq]
              exact List.mem_singleton_self _
            · show t * 2 ^ (w - mask) ≤ a ∧ a < t * 2 ^ (w - mask) + blocksize w mask
              unfold blocksize
              omega
      · -- pairwise disjointness
        refine List.pairwise_append.mpr ⟨?_, List.pairwise_append.mpr ⟨?_, hrecR, ?_⟩, ?_⟩
        · split
          · exact List.pairwise_singleton _ _
          · exact List.Pairwise.nil
        · split
          · exact List.pairwise_singleton _ _
          · exact List.Pairwise.nil
        · -- the high peel vs the recursive blocks
          intro x hx y hy
          obtain ⟨rfl, hto⟩ := hBlmem x hx
          obtain ⟨_, _, _, w4⟩ := hrecP y hy
          intro a hc
          obtain ⟨hcx, hcy⟩ := hc
          obtain ⟨hcx1, hcx2⟩ := hcx
          obtain ⟨hcy1, hcy2⟩ := hcy
          simp only [blocksize] at hcx2 hcy2
          have htv2 : (t1 + 1) * 2 ^ (w - mask) = t * 2 ^ (w - mask) := by
            rw [ht1even hto]
          omega
        · -- the low peel vs everything after it
          intro x hx y hy
          obtain ⟨rfl, hfo⟩ := hAmem x hx
          have hf1v : f1 = f + 1 := hf1odd hfo
          rcases List.mem_append.mp hy with hBl | hrec
          · obtain ⟨rfl, hto⟩ := hBlmem y hBl
            intro a hc
            obtain ⟨⟨hcx1, hcx2⟩, ⟨hcy1, hcy2⟩⟩ := hc
            simp only [blocksize] at hcx2 hcy2
            omega
          · obtain ⟨_, _, w3, _⟩ := hrecP y hrec
            intro a hc
            obtain ⟨⟨hcx1, hcx2⟩, ⟨hcy1, hcy2⟩⟩ := hc
            simp only [blocksize] at hcx2 hcy2
            have hx2 : f1 * 2 ^ (w - mask) = f * 2 ^ (w - mask) + 2 ^ (w - mask) := by
              rw [hf1v]; ring
            omega
      · -- maximality in [F, T]
        intro b hb
        rcases List.mem_append.mp hb with hA | hBC
        · obtain ⟨rfl, hfo⟩ := hAmem b hA
          intro _
          simp only [parentNet, blocksize]
          intro hcc
          obtain ⟨c1, c2⟩ := hcc
          have hmod : f * 2 ^ (w - mask) % (2 * 2 ^ (w - mask)) = f % 2 * 2 ^ (w - mask) :=
            Nat.mul_mod_mul_right (2 ^ (w - mask)) f 2
          rw [hmod, hfo, one_mul] at c1 c2
          have hfB : 2 ^ (w - mask) ≤ f * 2 ^ (w - mask) := by
            have h1f : 1 ≤ f := by omega
            calc 2 ^ (w - mask) = 1 * 2 ^ (w - mask) := (one_mul _).symm
              _ ≤ f * 2 ^ (w - mask) := Nat.mul_le_mul_right _ h1f
          omega
        · rcases List.mem_append.mp hBC with hBl | hrec
          · obtain ⟨rfl, hto⟩ := hBlmem b hBl
            intro _
            simp only [parentNet, blocksize]
            intro hcc
            obtain ⟨c1, c2⟩ := hcc
            have hmod : t * 2 ^ (w - mask) % (2 * 2 ^ (w - mask)) = t % 2 * 2 ^ (w - mask) :=
              Nat.mul_mod_mul_right (2 ^ (w - mask)) t 2
            rw [hmod, hto, zero_mul, Nat.sub_zero] at c1 c2
            omega
          · exact hrecM b hrec

/-- Every block covers its own base address. -/
theorem covers_self (w : Nat) (b : Nat × Nat) : coversP w b b.1 :=
  ⟨le_refl _, Nat.lt_add_of_pos_right (pow_pos (by norm_num) _)⟩

/-- Every block covers its top address. -/
theorem covers_top (w : Nat) (b : Nat × Nat) : coversP w b (b.1 + blocksize w b.2 - 1) := by
  have hp : 0 < blocksize w b.2 := pow_pos (by norm_num) _
  exact ⟨by omega, by omega⟩

/-- Two aligned intervals sharing a point nest: the one with the smaller
(dividing) size lies inside the other. -/
theorem aligned_nested {base1 s1 base2 s2 a : Nat}
    (hd1 : s1 ∣ base1) (hd2 : s2 ∣ base2) (hdvd : s1 ∣ s2) (hpos : 0 < s1)
    (hc1a : base1 ≤ a) (hc1b : a < base1 + s1)
    (hc2a : base2 ≤ a) (hc2b : a < base2 + s2) :
    base2 ≤ base1 ∧ base1 + s1 ≤ base2 + s2 := by
  have hpos2 : 0 < s2 := by
    rcases Nat.eq_zero_or_pos s2 with h0 | h
    · omega
    · exact h
  obtain ⟨k1, hk1⟩ := hd1
  obtain ⟨k2, hk2⟩ := hd2
  have hmod1 : a % s1 = a - base1 := by
    calc a % s1 = (s1 * k1 + (a - base1)) % s1 := by rw [← hk1]; congr 1; omega
      _ = (a - base1) % s1 := Nat.mul_add_mod s1 k1 (a - base1)
      _ = a - base1 := Nat.mod_eq_of_lt (by omega)
  have hmod2 : a % s2 = a - base2 := by
    calc a % s2 = (s2 * k2 + (a - base2)) % s2 := by rw [← hk2]; congr 1; omega
      _ = (a - base2) % s2 := Nat.mul_add_mod s2 k2 (a - base2)
      _ = a - base2 := Nat.mod_eq_of_lt (by omega)
  have hmm : a % s2 % s1 = a % s1 := Nat.mod_mod_of_dvd a hdvd
  have hle12 : a % s1 ≤ a % s2 := by
    rw [← hmm]
    exact Nat.mod_le _ _
  constructor
  · omega
  · -- (a % s2) - (a % s1) + s1 ≤ s2, since the strip below a % s2 is a
    -- multiple of s1 and a % s2 < s2 with s1 ∣ s2
    have hdm := Nat.div_add_mod (a % s2) s1
    have hdiv : a % s2 / s1 < s2 / s1 :=
      Nat.div_lt_div_of_lt_of_dvd hdvd (Nat.mod_lt a hpos2)
    have hmono : s1 * (a % s2 / s1 + 1) ≤ s1 * (s2 / s1) :=
      Nat.mul_le_mul_left s1 (by omega)
    have hcan : s1 * (s2 / s1) = s2 := Nat.mul_div_cancel' hdvd
    have hmul : s1 * (a % s2 / s1 + 1) = s1 * (a % s2 / s1) + s1 := by ring
    omega

/-- The base of the parent strip of `b` is divisible by twice the block size. -/
theorem parentNet_dvd (w : Nat) (b : Nat × Nat) :
    2 * blocksize w b.2 ∣ parentNet w b := by
  have hdm := Nat.div_add_mod b.1 (2 * blocksize w b.2)
  refine ⟨b.1 / (2 * blocksize w b.2), ?_⟩
  unfold parentNet
  omega

/-- The parent strip of `b` contains `b`'s base address. -/
theorem parentNet_covers (w : Nat) (b : Nat × Nat) :
    parentNet w b ≤ b.1 ∧ b.1 < parentNet w b + 2 * blocksize w b.2 := by
  have hp : 0 < 2 * blocksize w b.2 := by
    have := pow_pos (by norm_num : (0 : Nat) < 2) (w - b.2)
    unfold blocksize
    omega
  have hlt : b.1 % (2 * blocksize w b.2) < 2 * blocksize w b.2 := Nat.mod_lt _ hp
  unfold parentNet
  omega

/-- Laminar structure: a valid block sharing an address with a block of `S`
(whose members are maximal in `[F, T]`) is nested inside it, provided the
other block stays inside `[F, T]`. -/
theorem nested_in_maximal (w F T : Nat) (s l : Nat × Nat) (a : Nat)
    (hswf : validB w s) (hlwf : validB w l)
    (hsmax : maximalIn w F T s)
    (hlin : ∀ x, coversP w l x → F ≤ x ∧ x < T + 1)
    (hcs : coversP w s a) (hcl : coversP w l a) :
    ∀ x, coversP w l x → coversP w s x := by
  obtain ⟨hsm, hsa⟩ := hswf
  obtain ⟨hlm, hla⟩ := hlwf
  obtain ⟨hcs1, hcs2⟩ := hcs
  obtain ⟨hcl1, hcl2⟩ := hcl
  rcases le_or_lt (blocksize w l.2) (blocksize w s.2) with hsize | hsize
  · -- l is the smaller block: l nests inside s directly
    have hdvd : blocksize w l.2 ∣ blocksize w s.2 := by
      unfold blocksize at hsize ⊢
      exact pow_dvd_pow 2 ((Nat.pow_le_pow_iff_right (by norm_num : (1 : Nat) < 2)).mp hsize)
    have hpos : 0 < blocksize w l.2 := pow_pos (by norm_num) _
    obtain ⟨hn1, hn2⟩ := aligned_nested (Nat.dvd_of_mod_eq_zero hla)
      (Nat.dvd_of_mod_eq_zero hsa) hdvd hpos hcl1 hcl2 hcs1 hcs2
    intro x hx
    obtain ⟨hx1, hx2⟩ := hx
    exact ⟨by omega, by omega⟩
  · -- s is strictly smaller: its parent strip would fit inside l and hence
    -- inside [F, T], contradicting maximality
    exfalso
    have hs2pos : 1 ≤ s.2 := by
      by_contra hc
      have hz : s.2 = 0 := by omega
      have h1 : blocksize w l.2 ≤ blocksize w s.2 := by
        unfold blocksize
        rw [hz, Nat.sub_zero]
        exact Nat.pow_le_pow_right (by norm_num) (by omega)
      omega
    have hdvd0 : blocksize w s.2 ∣ blocksize w l.2 := by
      unfold blocksize at hsize ⊢
      exact pow_dvd_pow 2 ((Nat.pow_le_pow_iff_right (by norm_num : (1 : Nat) < 2)).mp
        (le_of_lt hsize))
    have hpos : 0 < blocksize w s.2 := pow_pos (by norm_num) _
    -- first: s nests inside l
    obtain ⟨hn1, hn2⟩ := aligned_nested (Nat.dvd_of_mod_eq_zero hsa)
      (Nat.dvd_of_mod_eq_zero hla) hdvd0 hpos hcs1 hcs2 hcl1 hcl2
    -- the parent strip of s also nests inside l
    have hdvd2 : 2 * blocksize w s.2 ∣ blocksize w l.2 := by
      unfold blocksize at hsize ⊢
      have hexp : w - s.2 < w - l.2 :=
        (Nat.pow_lt_pow_iff_right (by norm_num : (1 : Nat) < 2)).mp hsize
      have h2 : (2 : Nat) * 2 ^ (w - s.2) = 2 ^ (w - s.2 + 1) := by
        rw [pow_succ]; ring
      rw [h2]
      exact pow_dvd_pow 2 (by omega)
    obtain ⟨hpc1, hpc2⟩ := parentNet_covers w s
    have hlcovs1 : coversP w l s.1 := ⟨by omega, by omega⟩
    obtain ⟨hq1, hq2⟩ := aligned_nested (parentNet_dvd w s)
      (Nat.dvd_of_mod_eq_zero hla) hdvd2 (by omega) hpc1 hpc2 hlcovs1.1
      hlcovs1.2
    -- l sits inside [F, T]
    have hin1 := hlin l.1 (covers_self w l)
    have hin2 := hlin (l.1 + blocksize w l.2 - 1) (covers_top w l)
    have hbl : 0 < blocksize w l.2 := pow_pos (by norm_num) _
    exact hsmax hs2pos ⟨by omega, by omega⟩

/-- A disjoint exact cover by maximal valid blocks is the unique minimum-size
CIDR cover: any list `L` of valid blocks whose union of covered addresses is
exactly `[F, T]` has at least as many blocks as `S`, and has the same block
set when the lengths agree. -/
theorem minimal_unique (w F T : Nat) (S L : List (Nat × Nat))
    (hSwf : ∀ b ∈ S, validB w b)
    (hSin : ∀ b ∈ S, ∀ a, coversP w b a → F ≤ a ∧ a < T + 1)
    (hScov : ∀ a, F ≤ a → a < T + 1 → ∃ b ∈ S, coversP w b a)
    (hSdisj : List.Pairwise (disjB w) S)
    (hSmax : ∀ b ∈ S, maximalIn w F T b)
    (hLwf : ∀ b ∈ L, validB w b)
    (hLcov : ∀ a, (∃ b ∈ L, coversP w b a) ↔ (F ≤ a ∧ a < T + 1)) :
    S.length ≤ L.length ∧ (L.length = S.length → L.toFinset = S.toFinset) := by
  classical
  have hsymm : Symmetric (disjB w) := fun x y h a hc => h a ⟨hc.2, hc.1⟩
  have hSdisj2 : ∀ b1 ∈ S, ∀ b2 ∈ S, b1 ≠ b2 → disjB w b1 b2 :=
    fun b1 h1 b2 h2 hne => List.Pairwise.forall hsymm hSdisj h1 h2 hne
  have hSuniq : ∀ (a : Nat), ∀ b1 ∈ S, ∀ b2 ∈ S,
      coversP w b1 a → coversP w b2 a → b1 = b2 := by
    intro a b1 h1 b2 h2 hc1 hc2
    by_contra hne
    exact hSdisj2 b1 h1 b2 h2 hne a ⟨hc1, hc2⟩
  have hSnodup : S.Nodup := by
    refine List.Pairwise.imp ?_ hSdisj
    intro b1 b2 hd he
    exact (he ▸ hd) b2.1 ⟨covers_self w b2, covers_self w b2⟩
  have hLin : ∀ l ∈ L, ∀ x, coversP w l x → F ≤ x ∧ x < T + 1 :=
    fun l hl x hx => (hLcov x).mp ⟨l, hl, hx⟩
  have hpickmem : ∀ a, F ≤ a → a < T + 1 →
      pickCover w S a ∈ S ∧ coversP w (pickCover w S a) a := by
    intro a h1 h2
    obtain ⟨b, hb, hcov⟩ := hScov a h1 h2
    unfold pickCover
    match hF : S.find? (fun b => decide (coversP w b a)) with
    | none =>
      exfalso
      have := List.find?_eq_none.mp hF b hb
      rw [decide_eq_true hcov] at this
      exact this rfl
    | some c =>
      have h3 : c ∈ S := List.mem_of_find?_eq_some hF
      have h4 := @List.find?_some (Nat × Nat) (fun b => decide (coversP w b a)) c S hF
      exact ⟨h3, of_decide_eq_true h4⟩
  -- every l ∈ L is nested inside the unique S-block that covers its base
  have hnest : ∀ l ∈ L, ∀ x, coversP w l x → coversP w (pickCover w S l.1) x := by
    intro l hl x hx
    have hself : coversP w l l.1 := covers_self w l
    obtain ⟨hmem, hcov⟩ := hpickmem l.1 (hLin l hl l.1 hself).1 (hLin l hl l.1 hself).2
    exact nested_in_maximal w F T (pickCover w S l.1) l l.1 (hSwf _ hmem) (hLwf l hl)
      (hSmax _ hmem) (hLin l hl) hcov hself x hx
  have hmapsto : ∀ l ∈ L, pickCover w S l.1 ∈ S := by
    intro l hl
    have hself : coversP w l l.1 := covers_self w l
    exact (hpickmem l.1 (hLin l hl l.1 hself).1 (hLin l hl l.1 hself).2).1
  -- surjectivity of the nesting map onto S
  have hsurj : ∀ s ∈ S, ∃ l ∈ L, pickCover w S l.1 = s := by
    intro s hs
    have hsin := hSin s hs s.1 (covers_self w s)
    obtain ⟨l, hl, hcovl⟩ := (hLcov s.1).mpr hsin
    refine ⟨l, hl, ?_⟩
    have hnestl : ∀ x, coversP w l x → coversP w s x :=
      nested_in_maximal w F T s l s.1 (hSwf s hs) (hLwf l hl) (hSmax s hs)
        (hLin l hl) (covers_self w s) hcovl
    have hcovs1 : coversP w s l.1 := hnestl l.1 (covers_self w l)
    have hself : coversP w l l.1 := covers_self w l
    obtain ⟨hmem, hcov⟩ := hpickmem l.1 (hLin l hl l.1 hself).1 (hLin l hl l.1 hself).2
    exact hSuniq l.1 _ hmem s hs hcov hcovs1
  -- cardinalities
  have hSF : S.toFinset.card = S.length := List.toFinset_card_of_nodup hSnodup
  have hsurjF : Set.SurjOn (fun l => pickCover w S l.1)
      (↑L.toFinset : Set (Nat × Nat)) (↑S.toFinset : Set (Nat × Nat)) := by
    intro s hs
    rw [Finset.mem_coe, List.mem_toFinset] at hs
    obtain ⟨l, hl, he⟩ := hsurj s hs
    exact ⟨l, by rw [Finset.mem_coe, List.mem_toFinset]; exact hl, he⟩
  have hcard1 : S.toFinset.card ≤ L.toFinset.card :=
    Finset.card_le_card_of_surjOn _ hsurjF
  have hLcard : L.toFinset.card ≤ L.length := List.toFinset_card_le L
  have hlen : S.length ≤ L.length := by omega
  refine ⟨hlen, ?_⟩
  intro heq
  have hLF : L.toFinset.card = L.length := by omega
  have hcards : S.toFinset.card = L.toFinset.card := by omega
  -- injectivity on L.toFinset from surjectivity plus equal cardinality
  have hmapstoF : ∀ l ∈ L.toFinset, pickCover w S l.1 ∈ S.toFinset := by
    intro l hl
    rw [List.mem_toFinset] at hl
    rw [List.mem_toFinset]
    exact hmapsto l hl
  have hinj := Finset.inj_on_of_surj_on_of_card_le
    (s := L.toFinset) (t := S.toFinset)
    (fun l _ => pickCover w S l.1) hmapstoF
    (by
      intro s hsF
      rw [List.mem_toFinset] at hsF
      obtain ⟨l, hl, he⟩ := hsurj s hsF
      exact ⟨l, List.mem_toFinset.mpr hl, he⟩)
    (by omega)
  have hinjOn : Set.InjOn (fun l => pickCover w S l.1) (↑L.toFinset : Set (Nat × Nat)) := by
    intro x hx y hy he
    rw [Finset.mem_coe] at hx hy
    exact hinj hx hy he
  have himgcard : (L.toFinset.image (fun l => pickCover w S l.1)).card = L.toFinset.card :=
    Finset.card_image_of_injOn hinjOn
  have himg : L.toFinset.image (fun l => pickCover w S l.1) = S.toFinset := by
    refine Finset.eq_of_subset_of_card_le ?_ (by omega)
    intro s hsi
    obtain ⟨l, hl, he⟩ := Finset.mem_image.mp hsi
    rw [← he]
    exact hmapstoF l hl
  -- address counting: both partitions of [F, T] have total size T + 1 - F
  have hIcoS : Finset.Ico F (T + 1) =
      S.toFinset.biUnion (fun b => Finset.Ico b.1 (b.1 + blocksize w b.2)) := by
    ext x
    rw [Finset.mem_biUnion, Finset.mem_Ico]
    constructor
    · intro hx
      obtain ⟨b, hb, hcov⟩ := hScov x hx.1 (by omega)
      exact ⟨b, List.mem_toFinset.mpr hb, Finset.mem_Ico.mpr ⟨hcov.1, hcov.2⟩⟩
    · intro hx
      obtain ⟨b, hb, hxb⟩ := hx
      rw [Finset.mem_Ico] at hxb
      have := hSin b (List.mem_toFinset.mp hb) x ⟨hxb.1, hxb.2⟩
      omega
  have hsumS : ∑ b ∈ S.toFinset, blocksize w b.2 = T + 1 - F := by
    have hdisjF : ∀ x ∈ S.toFinset, ∀ y ∈ S.toFinset, x ≠ y →
        Disjoint (Finset.Ico x.1 (x.1 + blocksize w x.2))
          (Finset.Ico y.1 (y.1 + blocksize w y.2)) := by
      intro x hx y hy hne
      rw [Finset.disjoint_left]
      intro a ha hb
      rw [Finset.mem_Ico] at ha hb
      exact hSdisj2 x (List.mem_toFinset.mp hx) y (List.mem_toFinset.mp hy) hne a
        ⟨⟨ha.1, ha.2⟩, ⟨hb.1, hb.2⟩⟩
    have h1 := Finset.card_biUnion hdisjF
    rw [← hIcoS, Nat.card_Ico] at h1
    have h2 : ∑ b ∈ S.toFinset, (Finset.Ico b.1 (b.1 + blocksize w b.2)).card
        = ∑ b ∈ S.toFinset, blocksize w b.2 := by
      apply Finset.sum_congr rfl
      intro b _
      rw [Nat.card_Ico]
      omega
    rw [h2] at h1
    omega
  have hsumL : T + 1 - F ≤ ∑ b ∈ L.toFinset, blocksize w b.2 := by
    have hsub : Finset.Ico F (T + 1) ⊆
        L.toFinset.biUnion (fun b => Finset.Ico b.1 (b.1 + blocksize w b.2)) := by
      intro x hx
      rw [Finset.mem_Ico] at hx
      obtain ⟨b, hb, hcov⟩ := (hLcov x).mpr ⟨hx.1, by omega⟩
      rw [Finset.mem_biUnion]
      exact ⟨b, List.mem_toFinset.mpr hb, Finset.mem_Ico.mpr ⟨hcov.1, hcov.2⟩⟩
    calc T + 1 - F = (Finset.Ico F (T + 1)).card := (Nat.card_Ico F (T + 1)).symm
      _ ≤ (L.toFinset.biUnion (fun b => Finset.Ico b.1 (b.1 + blocksize w b.2))).card :=
        Finset.card_le_card hsub
      _ ≤ ∑ b ∈ L.toFinset, (Finset.Ico b.1 (b.1 + blocksize w b.2)).card :=
        Finset.card_biUnion_le
      _ = ∑ b ∈ L.toFinset, blocksize w b.2 := by
        apply Finset.sum_congr rfl
        intro b _
        rw [Nat.card_Ico]
        omega
  have hsummap : ∑ l ∈ L.toFinset, blocksize w (pickCover w S l.1).2 =
      ∑ b ∈ S.toFinset, blocksize w b.2 := by
    rw [← himg, Finset.sum_image (by
      intro x hx y hy he
      exact hinjOn (Finset.mem_coe.mpr hx) (Finset.mem_coe.mpr hy) he)]
  -- pointwise size comparison along the nesting map
  have hpoint : ∀ l ∈ L.toFinset, blocksize w l.2 ≤ blocksize w (pickCover w S l.1).2 := by
    intro l hlF
    have hl := List.mem_toFinset.mp hlF
    have h1 := hnest l hl l.1 (covers_self w l)
    have h2 := hnest l hl (l.1 + blocksize w l.2 - 1) (covers_top w l)
    have hbl : 0 < blocksize w l.2 := pow_pos (by norm_num) _
    obtain ⟨h1a, _⟩ := h1
    obtain ⟨_, h2b⟩ := h2
    omega
  have hsums : ∑ l ∈ L.toFinset, blocksize w l.2 =
      ∑ l ∈ L.toFinset, blocksize w (pickCover w S l.1).2 := by
    have hle := Finset.sum_le_sum hpoint
    omega
  have hpointeq := (Finset.sum_eq_sum_iff_of_le hpoint).mp hsums
  -- each l equals its covering block
  have hfix : ∀ l ∈ L.toFinset, l = pickCover w S l.1 := by
    intro l hlF
    have hl := List.mem_toFinset.mp hlF
    have hsz := hpointeq l hlF
    have h1 := hnest l hl l.1 (covers_self w l)
    have hbl : 0 < blocksize w l.2 := pow_pos (by norm_num) _
    have h2 := hnest l hl (l.1 + blocksize w l.2 - 1) (covers_top w l)
    have hnet : l.1 = (pickCover w S l.1).1 := by
      obtain ⟨h1a, _⟩ := h1
      obtain ⟨_, h2b⟩ := h2
      omega
    have hmask : l.2 = (pickCover w S l.1).2 := by
      have hwl := (hLwf l hl).1
      have hws := (hSwf _ (hmapsto l hl)).1
      unfold blocksize at hsz
      have hexp : w - l.2 = w - (pickCover w S l.1).2 :=
        Nat.pow_right_injective (by norm_num) hsz
      omega
    exact Prod.ext hnet hmask
  have hsubF : L.toFinset ⊆ S.toFinset := by
    intro l hlF
    rw [hfix l hlF]
    exact hmapstoF l hlF
  exact Finset.eq_of_subset_of_card_le hsubF (by omega)

/-- Membership in a fold of set insertions comes from the accumulator or from
one of the inserted elements. -/
theorem mem_foldl_insertSet {g : (Nat × Nat) → Subnet} :
    ∀ (pairs : List (Nat × Nat)) (acc : List Subnet) (x : Subnet),
      x ∈ pairs.foldl (fun acc b => insertSet acc (g b)) acc →
      x ∈ acc ∨ ∃ b ∈ pairs, x = g b := by
  intro pairs
  induction pairs with
  | nil =>
    intro acc x hx
    left
    exact hx
  | cons p ps ih =>
    intro acc x hx
    simp only [List.foldl_cons] at hx
    rcases ih _ x hx with h1 | h1
    · rcases mem_insertSet h1 with h2 | h2
      · left; exact h2
      · right; exact ⟨p, List.mem_cons_self _ _, h2⟩
    · obtain ⟨b, hb, he⟩ := h1
      right
      exact ⟨b, List.mem_cons_of_mem _ hb, he⟩

/-- C1: for every `from ≤ to` at any bit width (in particular 32 and 128), the
range splitter emits well-formed blocks lying inside `[from, to]` that cover
`[from, to]` exactly and are pairwise disjoint, and the emitted list is the
unique minimum-cardinality CIDR cover of `[from, to]`; every Block inserted by
`parse_ipv4_range` / `parse_ipv6_range` carries the supplied tag (0 when no
tag is supplied); for `to < from` nothing is emitted and the set is unchanged;
and `split(223.255.229.0, 223.255.230.255)` is exactly
`{223.255.229.0/24, 223.255.230.0/24}`. -/
theorem split_minimal_cover :
    (∀ w f t : Nat, t < 2 ^ w → f ≤ t →
      (∀ b ∈ splitRange w f t, validB w b ∧ f ≤ b.1 ∧ b.1 + blocksize w b.2 ≤ t + 1) ∧
      (∀ a, f ≤ a → a ≤ t → ∃ b ∈ splitRange w f t, coversP w b a) ∧
      (∀ b ∈ splitRange w f t, ∀ a, coversP w b a → f ≤ a ∧ a ≤ t) ∧
      List.Pairwise (disjB w) (splitRange w f t) ∧
      (∀ L2 : List (Nat × Nat), (∀ b ∈ L2, validB w b) →
        (∀ a, (∃ b ∈ L2, coversP w b a) ↔ (f ≤ a ∧ a ≤ t)) →
        (splitRange w f t).length ≤ L2.length ∧
        (L2.length = (splitRange w f t).length →
          L2.toFinset = (splitRange w f t).toFinset))) ∧
    (∀ w fuel mask f t : Nat, t < f → rangeGo w fuel mask f t = []) ∧
    (∀ (v : List Subnet) (f t : Nat) (tg : Option Nat), t < f →
      parseIpv4Range v f t tg = v ∧ parseIpv6Range v f t tg = v) ∧
    (∀ (f t : Nat) (tg : Option Nat), ∀ s ∈ parseIpv4Range [] f t tg, s.tag = tg.getD 0) ∧
    (∀ (f t : Nat) (tg : Option Nat), ∀ s ∈ parseIpv6Range [] f t tg, s.tag = tg.getD 0) ∧
    parseIpv4Range [] 0xDFFFE500 0xDFFFE6FF none =
      [⟨Sum.inl 0xDFFFE500, 24, 0⟩, ⟨Sum.inl 0xDFFFE600, 24, 0⟩] := by
  have hbody : ∀ w f t : Nat, t < 2 ^ w → f ≤ t →
      (∀ b ∈ splitRange w f t, validB w b ∧ f ≤ b.1 ∧ b.1 + blocksize w b.2 ≤ t + 1) ∧
      (∀ a, f ≤ a → a ≤ t → ∃ b ∈ splitRange w f t, coversP w b a) ∧
      (∀ b ∈ splitRange w f t, ∀ a, coversP w b a → f ≤ a ∧ a ≤ t) ∧
      List.Pairwise (disjB w) (splitRange w f t) ∧
      (∀ L2 : List (Nat × Nat), (∀ b ∈ L2, validB w b) →
        (∀ a, (∃ b ∈ L2, coversP w b a) ↔ (f ≤ a ∧ a ≤ t)) →
        (splitRange w f t).length ≤ L2.length ∧
        (L2.length = (splitRange w f t).length →
          L2.toFinset = (splitRange w f t).toFinset)) := by
    intro w f t ht hft
    have hww : w - w = 0 := Nat.sub_self w
    have hpow1 : (2 : Nat) ^ (w - w) = 1 := by rw [hww, pow_zero]
    obtain ⟨P1, Q1, R1, M1⟩ := rangeGo_spec w f t (w + 1) w f t (le_refl w)
      (Nat.lt_succ_self w) ht hft
      (by rw [hpow1]; omega) (by rw [hpow1]; omega)
      (by rw [hpow1]; omega) (by rw [hpow1]; omega)
    rw [hpow1] at P1 Q1
    simp only [mul_one] at P1 Q1
    have hP : ∀ b ∈ splitRange w f t,
        validB w b ∧ f ≤ b.1 ∧ b.1 + blocksize w b.2 ≤ t + 1 := by
      intro b hb
      obtain ⟨w1, w2, w3, w4⟩ := P1 b hb
      exact ⟨⟨w1, w2⟩, w3, w4⟩
    refine ⟨hP, ?_, ?_, R1, ?_⟩
    · intro a h1 h2
      exact Q1 a h1 (by omega)
    · intro b hb a hcov
      obtain ⟨⟨_, _⟩, w3, w4⟩ := hP b hb
      obtain ⟨hc1, hc2⟩ := hcov
      constructor
      · omega
      · omega
    · intro L2 hL2wf hL2cov
      have hmain := minimal_unique w f t (splitRange w f t) L2
        (fun b hb => (hP b hb).1)
        (by
          intro b hb a hcov
          obtain ⟨⟨_, _⟩, w3, w4⟩ := hP b hb
          obtain ⟨hc1, hc2⟩ := hcov
          exact ⟨by omega, by omega⟩)
        (fun a h1 h2 => Q1 a h1 (by omega))
        R1 M1 hL2wf
        (by
          intro a
          rw [hL2cov a]
          omega)
      exact hmain
  refine ⟨hbody, rangeGo_nil, ?_, ?_, ?_, by decide⟩
  · intro v f t tg h
    constructor
    · show (splitRange 32 f t).foldl _ v = v
      unfold splitRange
      rw [rangeGo_nil 32 (32 + 1) 32 f t h]
      rfl
    · show (splitRange 128 f t).foldl _ v = v
      unfold splitRange
      rw [rangeGo_nil 128 (128 + 1) 128 f t h]
      rfl
  · intro f t tg s hs
    rcases mem_foldl_insertSet (splitRange 32 f t) [] s hs with h1 | h1
    · cases h1
    · obtain ⟨b, _, he⟩ := h1
      rw [he]
  · intro f t tg s hs
    rcases mem_foldl_insertSet (splitRange 128 f t) [] s hs with h1 | h1
    · cases h1
    · obtain ⟨b, _, he⟩ := h1
      rw [he]

/-- Closed instance of `split_minimal_cover`: the split of the interval
`[2, 5]` at width 4 covers address 3. -/
theorem split_minimal_cover_witness :
    ∃ b ∈ splitRange 4 2 5, coversP 4 b 3 :=
  ((split_minimal_cover.1 4 2 5 (by decide) (by decide)).2.1) 3 (by decide) (by decide)
